import Mathlib

/-!
Verification of the markdown transformation engine in
`src/markdownTransformer.ts` (`transformMarkdown`).

The embedding works on `List Char`.  JavaScript regular-expression passes
are translated into explicit left-to-right scanners: a global multiline
regex replace becomes a recursion over the character list that carries an
`atStart` flag (true exactly when the current position is the beginning of
the string or is preceded by a line terminator, which is what `^` with the
`m` flag tests), consumes the matched characters, emits the replacement and
continues after the match.  The scanners are written with an explicit fuel
argument (always instantiated with the length of the scanned text, which is
an upper bound on the number of steps since every step consumes at least
one character) so that every definition is structurally recursive and
evaluates inside the kernel.
-/

namespace PasteReformatter

/-- The character class of JavaScript `\s` (also the set trimmed by
`String.prototype.trim`): ASCII whitespace, NBSP, the Unicode space
separators, the line terminators and the BOM. -/
def jsWs (c : Char) : Bool :=
  c = ' ' || c = '\t' || c = '\n' || c = '\r' || c = '\x0b' || c = '\x0c' ||
  c = '\u00A0' || c = '\u1680' ||
  (0x2000 ≤ c.toNat && c.toNat ≤ 0x200a) ||
  c = '\u2028' || c = '\u2029' || c = '\u202F' || c = '\u205F' ||
  c = '\u3000' || c = '\uFEFF'

/-- JavaScript line terminators: the positions where multiline `^` and `$`
anchor. -/
def isLineTerm (c : Char) : Bool :=
  c = '\n' || c = '\r' || c = '\u2028' || c = '\u2029'

theorem isLineTerm_ws {c : Char} (h : isLineTerm c = true) : jsWs c = true := by
  simp only [isLineTerm, Bool.or_eq_true, decide_eq_true_eq] at h
  rcases h with ((h | h) | h) | h <;> subst h <;> decide

/-- `markdown.replace(/\r\n/g, '\n')`: the line-ending normalization done
by the blank-line collapser and the empty-line filter (source lines 138 and
152). -/
def normalizeCRLF : List Char → List Char
  | [] => []
  | [c] => [c]
  | c :: d :: rest =>
      if c = '\r' ∧ d = '\n' then '\n' :: normalizeCRLF rest
      else c :: normalizeCRLF (d :: rest)

theorem normalizeCRLF_length_le : ∀ t : List Char, (normalizeCRLF t).length ≤ t.length := by
  intro t
  induction t using normalizeCRLF.induct with
  | case1 => simp [normalizeCRLF]
  | case2 c => simp [normalizeCRLF]
  | case3 c d rest h ih =>
      simp only [normalizeCRLF, if_pos h, List.length_cons]
      omega
  | case4 c d rest h ih =>
      simp only [normalizeCRLF, if_neg h, List.length_cons]
      simp only [List.length_cons] at ih
      omega

theorem normalizeCRLF_lt_of_ne : ∀ t : List Char, normalizeCRLF t ≠ t →
    (normalizeCRLF t).length < t.length := by
  intro t
  induction t using normalizeCRLF.induct with
  | case1 => intro h; exact absurd rfl h
  | case2 c => intro h; exact absurd rfl h
  | case3 c d rest h ih =>
      intro _
      have := normalizeCRLF_length_le rest
      simp only [normalizeCRLF, if_pos h, List.length_cons]
      omega
  | case4 c d rest h ih =>
      intro hne
      rw [normalizeCRLF, if_neg h] at hne ⊢
      have : normalizeCRLF (d :: rest) ≠ d :: rest := by
        intro he; exact hne (by rw [he])
      have := ih this
      simp only [List.length_cons] at this ⊢
      omega

/-- One step of `markdown.replace(/\n{3,}/g, '\n\n')` (source line 142):
at a `'\n'` the maximal run of newlines is measured; a run of three or more
becomes exactly two, shorter runs are copied; scanning resumes after the
run.  The fuel is an upper bound on the number of scan steps. -/
def collapseAux : Nat → List Char → List Char
  | 0, t => t
  | _ + 1, [] => []
  | fuel + 1, c :: rest =>
      if c = '\n' then
        let run := rest.takeWhile (· = '\n')
        (if 3 ≤ run.length + 1 then ['\n', '\n'] else '\n' :: run) ++
          collapseAux fuel (rest.drop run.length)
      else c :: collapseAux fuel rest

/-- `markdown.replace(/\n{3,}/g, '\n\n')`. -/
def collapseRuns (t : List Char) : List Char := collapseAux t.length t

/-- `true` iff the text contains three consecutive `'\n'` characters,
i.e. a run of 3 or more line breaks. -/
def hasTripleNl : List Char → Bool
  | c1 :: c2 :: c3 :: rest =>
      (c1 = '\n' && c2 = '\n' && c3 = '\n') || hasTripleNl (c2 :: c3 :: rest)
  | _ => false

/-- `markdown.split('\n')` (source line 155). -/
def splitNl : List Char → List (List Char)
  | [] => [[]]
  | c :: rest =>
      if c = '\n' then [] :: splitNl rest
      else
        match splitNl rest with
        | [] => [[c]]
        | l :: ls => (c :: l) :: ls

/-- `filteredLines.join('\n')` (source line 203). -/
def joinNl : List (List Char) → List Char
  | [] => []
  | [l] => l
  | l :: ls => l ++ '\n' :: joinNl ls

theorem splitNl_ne_nil : ∀ t : List Char, splitNl t ≠ [] := by
  intro t
  cases t with
  | nil => simp [splitNl]
  | cons c rest =>
      by_cases h : c = '\n'
      · simp [splitNl, h]
      · simp only [splitNl, if_neg h]
        cases splitNl rest <;> simp

theorem joinNl_nil : joinNl [] = [] := rfl

theorem joinNl_single (l : List Char) : joinNl [l] = l := rfl

theorem joinNl_cons₂ (a b : List Char) (ls : List (List Char)) :
    joinNl (a :: b :: ls) = a ++ '\n' :: joinNl (b :: ls) := rfl

theorem joinNl_splitNl : ∀ t : List Char, joinNl (splitNl t) = t := by
  intro t
  induction t with
  | nil => rfl
  | cons c rest ih =>
      by_cases h : c = '\n'
      · subst h
        rw [splitNl, if_pos rfl]
        rcases hs : splitNl rest with _ | ⟨l, ls⟩
        · exact absurd hs (splitNl_ne_nil rest)
        · rw [hs] at ih
          rw [joinNl_cons₂]
          simp only [List.nil_append]
          rw [ih]
      · rw [splitNl, if_neg h]
        rcases hs : splitNl rest with _ | ⟨l, ls⟩
        · exact absurd hs (splitNl_ne_nil rest)
        · rw [hs] at ih
          cases ls with
          | nil =>
              rw [joinNl_single] at ih ⊢
              rw [ih]
          | cons l2 ls2 =>
              rw [joinNl_cons₂] at ih ⊢
              rw [List.cons_append, ih]

/-- `currentLine.trim() === ''`. -/
def isBlankLine (l : List Char) : Bool := l.all jsWs

/-- `/^\s*-{3,}\s*$/.test(line)`: an entire line that is optional
whitespace, three or more dashes, optional whitespace (source line 178). -/
def isHrLine (l : List Char) : Bool :=
  let rest := l.dropWhile jsWs
  let dashes := rest.takeWhile (· = '-')
  decide (3 ≤ dashes.length) && (rest.drop dashes.length).all jsWs

/-- Search for a `'|'` reachable through non-line-terminator characters:
the `.*\|` part of the table-start test. -/
def hasPipeAfter : List Char → Bool
  | [] => false
  | c :: rest => if c = '|' then true else !isLineTerm c && hasPipeAfter rest

/-- `/^\s*\|.*\|/.test(line)` (source line 184). -/
def isTableStart (l : List Char) : Bool :=
  match l.dropWhile jsWs with
  | '|' :: rest => hasPipeAfter rest
  | _ => false

/-- `/^#{1,6}\s/.test(line)` (source line 190). -/
def isHeadingLine (l : List Char) : Bool :=
  let hashes := l.takeWhile (· = '#')
  decide (1 ≤ hashes.length) && decide (hashes.length ≤ 6) &&
    (match l.get? hashes.length with
     | some c => jsWs c
     | none => false)

/-- Consume `[^>]*` and then a `'>'`; return the remainder, or `none` when
no `'>'` follows. -/
def tailAfterGt (cs : List Char) : Option (List Char) :=
  match cs.dropWhile (· ≠ '>') with
  | '>' :: rest => some rest
  | _ => none

/-- The `.*?<\/p>` tail of the preserve-marker tests: a `</p>` reachable
through non-line-terminator characters. -/
def findClosePTag : List Char → Bool
  | [] => false
  | c :: rest =>
      "</p>".toList.isPrefixOf (c :: rest) || (!isLineTerm c && findClosePTag rest)

/-- Match one preserve-marker pattern at the head of `cs`: the literal
opening text, then `[^>]*>`, then `.*?<\/p>`. -/
def markerMatchAt (pat cs : List Char) : Bool :=
  pat.isPrefixOf cs &&
    (match tailAfterGt (cs.drop pat.length) with
     | some rest => findClosePTag rest
     | none => false)

/-- `.test` semantics: try the marker pattern at every start position. -/
def hasMarkerScan (pat : List Char) : List Char → Bool
  | [] => false
  | c :: rest => markerMatchAt pat (c :: rest) || hasMarkerScan pat rest

/-- The rule-1 test of the empty-line filter (source lines 166-168):
`/<p class="preserve-line-break"[^>]*>.*?<\/p>/` or
`/<p data-preserve="true"[^>]*>.*?<\/p>/`. -/
def hasPreserveMarker (l : List Char) : Bool :=
  hasMarkerScan "<p class=\"preserve-line-break\"".toList l ||
  hasMarkerScan "<p data-preserve=\"true\"".toList l

/-- The sliding-window pass of the empty-line filter (source lines
159-199).  `prev` is the previous line of the ORIGINAL sequence (`none` at
the first line), the lookahead is the head of the remaining original
lines. -/
def filterLines (preserveLineBreaks : Bool) :
    List (List Char) → Option (List Char) → List (List Char)
  | [], _ => []
  | cur :: rest, prev =>
      if preserveLineBreaks && hasPreserveMarker cur then
        [] :: filterLines preserveLineBreaks rest (some cur)
      else if isBlankLine cur &&
          (match rest.head? with | some nx => isHrLine nx | none => false) then
        cur :: filterLines preserveLineBreaks rest (some cur)
      else if isBlankLine cur &&
          (match rest.head? with | some nx => isTableStart nx | none => false) then
        cur :: filterLines preserveLineBreaks rest (some cur)
      else if isBlankLine cur &&
          (match prev with | some p => isHeadingLine p | none => false) then
        cur :: filterLines preserveLineBreaks rest (some cur)
      else if !isBlankLine cur then
        cur :: filterLines preserveLineBreaks rest (some cur)
      else
        filterLines preserveLineBreaks rest (some cur)

/-- Length of the leading run of `'#'` characters. -/
def leadHashes (cs : List Char) : Nat := (cs.takeWhile (· = '#')).length

/-- Whether index `k` exists and holds a `\s` character. -/
def wsAt (cs : List Char) (k : Nat) : Bool :=
  match cs.get? k with
  | some c => jsWs c
  | none => false

/-- Whether index `k` exists and holds a line terminator. -/
def termAt (cs : List Char) (k : Nat) : Bool :=
  match cs.get? k with
  | some c => isLineTerm c
  | none => false

/-- Whether `/^(#{1,6})\s/` matches at the current position (with `atStart`
the multiline `^` condition).  A leading run longer than 6 cannot match:
the regex engine would backtrack onto a `'#'`, which is not `\s`. -/
def headingGuard (atStart : Bool) (cs : List Char) : Bool :=
  atStart && decide (1 ≤ leadHashes cs) && decide (leadHashes cs ≤ 6) &&
    wsAt cs (leadHashes cs)

/-- `markdown.replace(/^(#{1,6})\s/gm, callback)` (source lines 37 and 63):
scan left to right; at each match, consume the hashes plus the single `\s`
character, apply `rule` to the running `(delta, cascading)` state and the
current level, emit `newLevel` hashes and a space, overwrite the
`appliedTransformations` flag with `newLevel != currentLevel`, and resume
after the match. -/
def scanHeadingsAux (rule : Int → Bool → Nat → Nat × Int × Bool) :
    Nat → List Char → Bool → Int → Bool → Bool → List Char × Bool
  | 0, cs, _, _, _, flag => (cs, flag)
  | _ + 1, [], _, _, _, flag => ([], flag)
  | fuel + 1, c :: rest, atStart, delta, casc, flag =>
      let cs := c :: rest
      let k := leadHashes cs
      if headingGuard atStart cs then
        let r := rule delta casc k
        let res := scanHeadingsAux rule fuel (cs.drop (k + 1)) (termAt cs k)
          r.2.1 r.2.2 (decide (r.1 ≠ k))
        (List.replicate r.1 '#' ++ ' ' :: res.1, res.2)
      else
        let res := scanHeadingsAux rule fuel rest (isLineTerm c) delta casc flag
        (c :: res.1, res.2)

/-- The heading replace pass on a whole text: initial state `delta = -1`,
`cascading = false`, position 0 is a line start. -/
def scanHeadings (rule : Int → Bool → Nat → Nat × Int × Bool)
    (text : List Char) (flag : Bool) : List Char × Bool :=
  scanHeadingsAux rule text.length text true (-1) false flag

/-- The per-match callback of the contextual cascade branch (source lines
41-51). -/
def contextualRule (contextLevel : Nat) (delta : Int) (cascading : Bool)
    (currentLevel : Nat) : Nat × Int × Bool :=
  if cascading then ((min ((currentLevel : Int) + delta) 6).toNat, delta, cascading)
  else if currentLevel ≤ contextLevel then
    let newLevel := min (contextLevel + 1) 6
    (newLevel, (newLevel : Int) - (currentLevel : Int), true)
  else (currentLevel, delta, cascading)

/-- The per-match callback of the max-heading-level branch (source lines
67-82). -/
def maxLevelRule (maxHeadingLevel : Nat) (cascadeHeadingLevels : Bool)
    (delta : Int) (cascading : Bool) (currentLevel : Nat) : Nat × Int × Bool :=
  if cascadeHeadingLevels then
    if cascading then ((min ((currentLevel : Int) + delta) 6).toNat, delta, cascading)
    else if currentLevel < maxHeadingLevel then
      (maxHeadingLevel, (maxHeadingLevel : Int) - (currentLevel : Int), true)
    else (currentLevel, delta, cascading)
  else (max currentLevel maxHeadingLevel, delta, cascading)

/-- One pattern → replacement rule of the substitution pipeline. -/
structure Rule where
  pattern : List Char
  replacement : List Char
deriving DecidableEq

/-- The settings record taken by `transformMarkdown` (source lines 13-21). -/
structure Settings where
  markdownRegexReplacements : List Rule
  contextualCascade : Bool
  maxHeadingLevel : Nat
  cascadeHeadingLevels : Bool
  stripLineBreaks : Bool
  convertToSingleSpaced : Bool
  removeEmptyLines : Bool

/-- The heading-processing part of the pipeline (source lines 27-91),
i.e. the non-escape branch: the contextual cascade runs when its flag is
set and `contextLevel > 0`, otherwise the max-level pass runs when
`maxHeadingLevel > 1`, otherwise headings are untouched. -/
def headingStage (s : Settings) (contextLevel : Nat) (text : List Char)
    (flag : Bool) : List Char × Bool :=
  if s.contextualCascade && decide (0 < contextLevel) then
    scanHeadings (contextualRule contextLevel) text flag
  else if decide (1 < s.maxHeadingLevel) then
    scanHeadings (maxLevelRule s.maxHeadingLevel s.cascadeHeadingLevels) text flag
  else (text, flag)

/-- The current levels of the heading-marker occurrences, in document
order: the same scan as `scanHeadingsAux`, collecting the matched levels
instead of rewriting. -/
def occLevelsAux : Nat → List Char → Bool → List Nat
  | 0, _, _ => []
  | _ + 1, [], _ => []
  | fuel + 1, c :: rest, atStart =>
      let cs := c :: rest
      let k := leadHashes cs
      if headingGuard atStart cs then
        k :: occLevelsAux fuel (cs.drop (k + 1)) (termAt cs k)
      else occLevelsAux fuel rest (isLineTerm c)

/-- Heading-marker occurrence levels of a whole text. -/
def occLevels (text : List Char) : List Nat := occLevelsAux text.length text true

/-- Run the per-match state machine over a list of occurrence levels,
recording each `(currentLevel, newLevel)` pair. -/
def occTrace (rule : Int → Bool → Nat → Nat × Int × Bool) :
    List Nat → Int → Bool → List (Nat × Nat)
  | [], _, _ => []
  | cur :: rest, delta, casc =>
      let r := rule delta casc cur
      (cur, r.1) :: occTrace rule rest r.2.1 r.2.2

/-- The value of a per-match-overwritten boolean after a sequence of
`(currentLevel, newLevel)` pairs: each pair overwrites the flag with
`newLevel ≠ currentLevel`. -/
def lastFlag (f : Bool) : List (Nat × Nat) → Bool
  | [] => f
  | p :: t => lastFlag (decide (p.2 ≠ p.1)) t

/-- Generic translation of a global (possibly multiline) regex replace:
`tryM` receives the `^`-anchor state and the remaining text, and returns
`some (matchLength, replacementText)` or `none`.  On a match the scanner
emits the replacement and resumes after the consumed characters, otherwise
it copies one character.  (`max n 1` only certifies progress: every
matcher below consumes at least one character.) -/
def rscanAux (tryM : Bool → List Char → Option (Nat × List Char)) :
    Nat → List Char → Bool → List Char
  | 0, cs, _ => cs
  | _ + 1, [], _ => []
  | fuel + 1, c :: rest, atStart =>
      match tryM atStart (c :: rest) with
      | none => c :: rscanAux tryM fuel rest (isLineTerm c)
      | some (n, out) =>
          let m := max n 1
          out ++ rscanAux tryM fuel ((c :: rest).drop m)
            (match ((c :: rest).take m).getLast? with
             | some ch => isLineTerm ch
             | none => atStart)

/-- A global regex replace over a whole text. -/
def rscan (tryM : Bool → List Char → Option (Nat × List Char))
    (text : List Char) : List Char :=
  rscanAux tryM text.length text true

/-- `/^(#{1,6}\s)/gm` → `'\\$1'` (source line 101). -/
def escHeadingM (atStart : Bool) (cs : List Char) : Option (Nat × List Char) :=
  if headingGuard atStart cs then
    some (leadHashes cs + 1, '\\' :: cs.take (leadHashes cs + 1))
  else none

/-- `/(\*\*|__|\*|_)/g` → `'\\$1'` (source line 103): the alternatives are
tried in order at each position. -/
def escEmphM (_ : Bool) (cs : List Char) : Option (Nat × List Char) :=
  if cs.take 2 = ['*', '*'] then some (2, ['\\', '*', '*'])
  else if cs.take 2 = ['_', '_'] then some (2, ['\\', '_', '_'])
  else if cs.take 1 = ['*'] then some (1, ['\\', '*'])
  else if cs.take 1 = ['_'] then some (1, ['\\', '_'])
  else none

/-- The `[-+*]` list-bullet class. -/
def isBulletCh (c : Char) : Bool := c = '-' || c = '+' || c = '*'

/-- Length of the leading maximal `\s*` run. -/
def wsRunLen (cs : List Char) : Nat := (cs.takeWhile jsWs).length

/-- `/^(\s*[-+*]\s)/gm` → `'\\$1'` (source line 105). -/
def escBulletM (atStart : Bool) (cs : List Char) : Option (Nat × List Char) :=
  if !atStart then none
  else
    let w := wsRunLen cs
    match cs.get? w, cs.get? (w + 1) with
    | some b, some sp =>
        if isBulletCh b && jsWs sp then some (w + 2, '\\' :: cs.take (w + 2)) else none
    | _, _ => none

/-- `/^(\s*\d+\.\s)/gm` → `'\\$1'` (source line 107). -/
def escNumM (atStart : Bool) (cs : List Char) : Option (Nat × List Char) :=
  if !atStart then none
  else
    let w := wsRunLen cs
    let d := ((cs.drop w).takeWhile (fun c => c.isDigit)).length
    if 1 ≤ d then
      match cs.get? (w + d), cs.get? (w + d + 1) with
      | some dot, some sp =>
          if dot = '.' && jsWs sp then some (w + d + 2, '\\' :: cs.take (w + d + 2))
          else none
      | _, _ => none
    else none

/-- `/(!?\[)/g` → `'\\$1'` (source line 109). -/
def escLinkM (_ : Bool) (cs : List Char) : Option (Nat × List Char) :=
  if cs.take 2 = ['!', '['] then some (2, ['\\', '!', '['])
  else if cs.take 1 = ['['] then some (1, ['\\', '['])
  else none

/-- `/(`{1,3})/g` → `'\\$1'` (source line 111): greedily up to three
backticks. -/
def escTickM (_ : Bool) (cs : List Char) : Option (Nat × List Char) :=
  let r := (cs.takeWhile (· = '`')).length
  if 1 ≤ r then
    let m := min r 3
    some (m, '\\' :: List.replicate m '`')
  else none

/-- `/^(\s*>\s)/gm` → `'\\$1'` (source line 113). -/
def escQuoteM (atStart : Bool) (cs : List Char) : Option (Nat × List Char) :=
  if !atStart then none
  else
    let w := wsRunLen cs
    match cs.get? w, cs.get? (w + 1) with
    | some g, some sp =>
        if g = '>' && jsWs sp then some (w + 2, '\\' :: cs.take (w + 2)) else none
    | _, _ => none

/-- The `[-*_]` horizontal-rule class. -/
def isHrCh (c : Char) : Bool := c = '-' || c = '*' || c = '_'

/-- Whether multiline `$` holds at position `p`: end of the text, or the
character there is a line terminator. -/
def atEol (cs : List Char) (p : Nat) : Bool :=
  decide (p = cs.length) || termAt cs p

/-- Greedy-with-backtracking search of the trailing `\s*$`: the largest
`j ≤ w2` such that `$` holds at `base + j`. -/
def lastEolOffset (cs : List Char) (base : Nat) : Nat → Option Nat
  | 0 => if atEol cs base then some 0 else none
  | j + 1 => if atEol cs (base + j + 1) then some (j + 1) else lastEolOffset cs base j

/-- `/^(\s*[-*_]{3,}\s*)$/gm` → `'\\$1'` (source line 115). -/
def escHrM (atStart : Bool) (cs : List Char) : Option (Nat × List Char) :=
  if !atStart then none
  else
    let w1 := wsRunLen cs
    let h := ((cs.drop w1).takeWhile isHrCh).length
    if 3 ≤ h then
      let w2 := ((cs.drop (w1 + h)).takeWhile jsWs).length
      match lastEolOffset cs (w1 + h) w2 with
      | some j => some (w1 + h + j, '\\' :: cs.take (w1 + h + j))
      | none => none
    else none

/-- `/(\|)/g` → `'\\$1'` (source line 117). -/
def escPipeM (_ : Bool) (cs : List Char) : Option (Nat × List Char) :=
  match cs with
  | '|' :: _ => some (1, ['\\', '|'])
  | _ => none

/-- `/^(\s*- \[ \])/gm` → `'\\$1'` (source line 119). -/
def escTaskM (atStart : Bool) (cs : List Char) : Option (Nat × List Char) :=
  if !atStart then none
  else
    let w := wsRunLen cs
    if "- [ ]".toList.isPrefixOf (cs.drop w) then
      some (w + 5, '\\' :: cs.take (w + 5))
    else none

/-- The lazy `` `.*?` `` search: distance to the nearest closing backtick
reachable through non-line-terminator characters. -/
def findTick : List Char → Option Nat
  | [] => none
  | c :: rest =>
      if c = '`' then some 0
      else if isLineTerm c then none
      else (findTick rest).map (· + 1)

/-- `[a-z]` with the `i` flag: an ASCII letter. -/
def isAsciiLetter (c : Char) : Bool :=
  ('a' ≤ c && c ≤ 'z') || ('A' ≤ c && c ≤ 'Z')

/-- The `(<\/?[a-z][^>]*>)` alternative of the final pass: an HTML-tag-like
substring, wrapped in backticks when it matches. -/
def tryTag (cs : List Char) : Option (Nat × List Char) :=
  match cs with
  | c :: rest =>
      if c = '<' then
        let slashLen := if rest.head? = some '/' then 1 else 0
        match rest.drop slashLen with
        | a :: r2 =>
            if isAsciiLetter a then
              let body := (r2.takeWhile (· ≠ '>')).length
              if r2.get? body = some '>' then
                let n := 1 + slashLen + 1 + body + 1
                some (n, '`' :: (cs.take n ++ ['`']))
              else none
            else none
        | [] => none
      else none
  | [] => none

/-- `/(`.*?`)|(<\/?[a-z][^>]*>)/gi` with the callback of source lines
121-126: a code-span match is returned unchanged, an HTML tag is wrapped
in a backtick code span. -/
def tagPassM (_ : Bool) (cs : List Char) : Option (Nat × List Char) :=
  match cs with
  | c :: rest =>
      if c = '`' then
        match findTick rest with
        | some d => some (d + 2, cs.take (d + 2))
        | none => tryTag cs
      else tryTag cs
  | [] => tryTag cs

/-- The escape branch (source lines 95-128): the eleven global replaces in
source order. -/
def escapeStage (text : List Char) : List Char :=
  rscan tagPassM (rscan escTaskM (rscan escPipeM (rscan escHrM (rscan escQuoteM
    (rscan escTickM (rscan escLinkM (rscan escNumM (rscan escBulletM
      (rscan escEmphM (rscan escHeadingM text))))))))))

/-- The escape branch together with its change flag
`appliedTransformations = (originalMarkdown !== markdown)`. -/
def escapeStagePair (text : List Char) : List Char × Bool :=
  (escapeStage text, decide (escapeStage text ≠ text))

/-- Global literal replace (the `.replace(/literal/g, s)` steps that decode
escape sequences in a rule's replacement text). -/
def replaceAllLitAux (pat repl : List Char) : Nat → List Char → List Char
  | 0, t => t
  | _ + 1, [] => []
  | fuel + 1, c :: rest =>
      if !pat.isEmpty && pat.isPrefixOf (c :: rest) then
        repl ++ replaceAllLitAux pat repl fuel ((c :: rest).drop pat.length)
      else c :: replaceAllLitAux pat repl fuel rest

/-- Global literal replace over a whole text. -/
def replaceAllLit (pat repl t : List Char) : List Char :=
  replaceAllLitAux pat repl t.length t

/-- Escape-sequence decoding of a rule's replacement text (source lines
212-219), in source order: `\r\n` pair first, then `\n`, `\r`, `\t`, the
quotes, and the literal backslash last. -/
def decodeReplacement (r : List Char) : List Char :=
  replaceAllLit ['\\', '\\'] ['\\']
    (replaceAllLit ['\\', '"'] ['"']
      (replaceAllLit ['\\', '\''] ['\'']
        (replaceAllLit ['\\', 't'] ['\t']
          (replaceAllLit ['\\', 'r'] ['\r']
            (replaceAllLit ['\\', 'n'] ['\n']
              (replaceAllLit ['\\', 'r', '\\', 'n'] ['\r', '\n'] r))))))

/-- The substitution pipeline (source lines 208-231).  The JavaScript
regex engine is host functionality, not code of this repository, so it is
a parameter: `applyRegex pattern replacement text` returns the substituted
text, or `none` when pattern compilation or application throws — in which
case the `catch` leaves the text as it was and the loop continues with the
next rule.  The flag is set when a rule changed the text. -/
def applyRules (applyRegex : List Char → List Char → List Char → Option (List Char)) :
    List Rule → List Char → Bool → List Char × Bool
  | [], text, flag => (text, flag)
  | r :: rest, text, flag =>
      match applyRegex r.pattern (decodeReplacement r.replacement) text with
      | none => applyRules applyRegex rest text flag
      | some t2 => applyRules applyRegex rest t2 (if t2 ≠ text then true else flag)

/-- Stage 1/2: the heading normalizer, or in escape mode the escaper
(source lines 27-129); `appliedTransformations` starts out `false`. -/
def stage12 (s : Settings) (contextLevel : Nat) (escapeMarkdown : Bool)
    (text : List Char) : List Char × Bool :=
  if escapeMarkdown then escapeStagePair text
  else headingStage s contextLevel text false

/-- Stage 3, the blank-line collapser (source lines 136-147): line-ending
normalization, then the run collapse; the before/after snapshot for the
change flag is taken AFTER the normalization. -/
def collapseStage (s : Settings) (tf : List Char × Bool) : List Char × Bool :=
  if s.convertToSingleSpaced && !s.removeEmptyLines then
    let n := normalizeCRLF tf.1
    let out := collapseRuns n
    (out, if out ≠ n then true else tf.2)
  else tf

/-- Stage 4, the empty-line filter (source lines 150-205): line-ending
normalization, split, the sliding-window filter, join; the change snapshot
is again the normalized text. -/
def removeEmptyStage (s : Settings) (tf : List Char × Bool) : List Char × Bool :=
  if s.removeEmptyLines then
    let n := normalizeCRLF tf.1
    let out := joinNl (filterLines (!s.stripLineBreaks) (splitNl n) none)
    (out, tf.2 || decide (out ≠ n))
  else tf

/-- The whole of `transformMarkdown` (source lines 11-237), composed from
the stage functions above in source order. -/
def transformMarkdown
    (applyRegex : List Char → List Char → List Char → Option (List Char))
    (markdown : List Char) (s : Settings) (contextLevel : Nat)
    (escapeMarkdown : Bool) : List Char × Bool :=
  let st := removeEmptyStage s (collapseStage s
    (stage12 s contextLevel escapeMarkdown markdown))
  applyRules applyRegex s.markdownRegexReplacements st.1 st.2

/-- The contextual-cascade state machine exactly as the spec words it
(§4.1): if already cascading, `newLevel = min(currentLevel + delta, 6)`;
else if `currentLevel <= contextLevel`, trigger with
`newLevel = min(contextLevel + 1, 6)`, `delta = newLevel - currentLevel`,
cascading becomes true; else the heading keeps its level. -/
def contextualCascadeSpecStep (contextLevel : Nat) (delta : Int)
    (cascading : Bool) (currentLevel : Nat) : Nat × Int × Bool :=
  if cascading then ((min ((currentLevel : Int) + delta) 6).toNat, delta, cascading)
  else if currentLevel ≤ contextLevel then
    (min (contextLevel + 1) 6,
      ((min (contextLevel + 1) 6 : Nat) : Int) - (currentLevel : Int), true)
  else (currentLevel, delta, cascading)

/-- The max-level cascade state machine exactly as the spec words it
(§4.1): the first occurrence with `currentLevel < maxHeadingLevel`
triggers with `newLevel = maxHeadingLevel` and
`delta = newLevel - currentLevel`; once cascading,
`newLevel = min(currentLevel + delta, 6)` with the fixed delta; before the
trigger a heading at or deeper than the max is unchanged. -/
def maxCascadeSpecStep (maxHeadingLevel : Nat) (delta : Int)
    (cascading : Bool) (currentLevel : Nat) : Nat × Int × Bool :=
  if cascading then ((min ((currentLevel : Int) + delta) 6).toNat, delta, cascading)
  else if currentLevel < maxHeadingLevel then
    (maxHeadingLevel, (maxHeadingLevel : Int) - (currentLevel : Int), true)
  else (currentLevel, delta, cascading)

theorem contextualRule_eq_spec (contextLevel : Nat) :
    contextualRule contextLevel = contextualCascadeSpecStep contextLevel := by
  funext d c cur
  rfl

theorem maxLevelRule_eq_spec (maxHeadingLevel : Nat) :
    maxLevelRule maxHeadingLevel true = maxCascadeSpecStep maxHeadingLevel := by
  funext d c cur
  simp [maxLevelRule, maxCascadeSpecStep]

/-- C1: in contextual cascade mode (escape mode off, flag set,
`contextLevel > 0`) the heading normalizer is exactly the spec's state
machine run over the heading occurrences in document order with state
`(delta, cascading)` initialized to `(-1, false)`: trigger on the first
occurrence with `currentLevel ≤ contextLevel` (new level
`min(contextLevel+1, 6)`, delta committed there), every later occurrence
shifted by the fixed delta clamped to 6, occurrences before the trigger
with `currentLevel > contextLevel` unchanged. -/
theorem contextual_cascade_refines_spec (s : Settings) (contextLevel : Nat)
    (hcc : s.contextualCascade = true) (hcl : 0 < contextLevel)
    (text : List Char) (flag : Bool) :
    headingStage s contextLevel text flag =
      scanHeadings (contextualCascadeSpecStep contextLevel) text flag := by
  unfold headingStage
  rw [hcc, ← contextualRule_eq_spec]
  simp [hcl]

/-- Witness for C1 at a concrete input. -/
theorem contextual_cascade_refines_spec_witness :
    headingStage ⟨[], true, 1, false, false, false, false⟩ 1 "# a".toList false =
      scanHeadings (contextualCascadeSpecStep 1) "# a".toList false :=
  contextual_cascade_refines_spec ⟨[], true, 1, false, false, false, false⟩ 1
    rfl (by decide) "# a".toList false

/-- C2: in max-level cascade mode (contextual mode inapplicable,
`maxHeadingLevel > 1`, cascading enabled) the heading normalizer is
exactly the spec's max-level state machine run over the heading
occurrences in document order with state `(-1, false)`: the first
occurrence with `currentLevel < maxHeadingLevel` triggers
(`newLevel = maxHeadingLevel`, delta committed), later occurrences are
shifted by the fixed delta clamped to 6, occurrences before the trigger at
or deeper than the max are unchanged. -/
theorem max_cascade_refines_spec (s : Settings) (contextLevel : Nat)
    (hna : s.contextualCascade = false ∨ contextLevel = 0)
    (hmax : 1 < s.maxHeadingLevel) (hcas : s.cascadeHeadingLevels = true)
    (text : List Char) (flag : Bool) :
    headingStage s contextLevel text flag =
      scanHeadings (maxCascadeSpecStep s.maxHeadingLevel) text flag := by
  unfold headingStage
  have hcond : (s.contextualCascade && decide (0 < contextLevel)) = false := by
    rcases hna with h | h
    · simp [h]
    · simp [h]
  rw [hcond]
  simp only [Bool.false_eq_true, if_false]
  rw [if_pos (by simpa using hmax), hcas, maxLevelRule_eq_spec]

/-- Witness for C2 at a concrete input. -/
theorem max_cascade_refines_spec_witness :
    headingStage ⟨[], false, 3, true, false, false, false⟩ 0 "## x\n# y".toList false =
      scanHeadings (maxCascadeSpecStep 3) "## x\n# y".toList false :=
  max_cascade_refines_spec ⟨[], false, 3, true, false, false, false⟩ 0
    (Or.inl rfl) (by decide) rfl "## x\n# y".toList false

/-- C5: a rule whose pattern fails to compile (or whose application
fails) is skipped: the text is exactly what it was before the rule, and
the remaining rules are applied to it in order, with no exception leaving
the pipeline (the `catch` is the `none` branch of `applyRules`). -/
theorem failed_rule_skipped
    (applyRegex : List Char → List Char → List Char → Option (List Char))
    (r : Rule) (rest : List Rule) (text : List Char) (flag : Bool)
    (hfail : applyRegex r.pattern (decodeReplacement r.replacement) text = none) :
    applyRules applyRegex (r :: rest) text flag =
      applyRules applyRegex rest text flag := by
  conv_lhs => rw [applyRules]
  rw [hfail]

/-- Witness for C5: an always-failing matcher skips the malformed rule
`"("` and leaves the text untouched. -/
theorem failed_rule_skipped_witness :
    applyRules (fun _ _ _ => none) [⟨"(".toList, "x".toList⟩] "text".toList false =
      applyRules (fun _ _ _ => none) [] "text".toList false :=
  failed_rule_skipped (fun _ _ _ => none) ⟨"(".toList, "x".toList⟩ [] "text".toList false rfl

theorem drop_takeWhile_length (p : Char → Bool) :
    ∀ l : List Char, l.drop (l.takeWhile p).length = l.dropWhile p := by
  intro l
  induction l with
  | nil => rfl
  | cons c rest ih =>
      by_cases h : p c
      · simp [List.takeWhile_cons, List.dropWhile_cons, h, ih]
      · simp [List.takeWhile_cons, List.dropWhile_cons, h]

theorem head_dropWhile_false (p : Char → Bool) :
    ∀ (l : List Char) (a : Char), (l.dropWhile p).head? = some a → p a = false := by
  intro l
  induction l with
  | nil => intro a h; simp [List.dropWhile] at h
  | cons c rest ih =>
      intro a h
      by_cases hp : p c
      · rw [List.dropWhile_cons, if_pos hp] at h
        exact ih a h
      · rw [List.dropWhile_cons, if_neg hp] at h
        simp at h
        rw [← h]
        simpa using hp

theorem blank_mem_ws {l : List Char} (hb : isBlankLine l = true) :
    ∀ c ∈ l, jsWs c = true := by
  intro c hc
  exact List.all_eq_true.mp hb c hc

theorem hasMarkerScan_of_blank (pr : List Char) :
    ∀ l : List Char, isBlankLine l = true → hasMarkerScan ('<' :: pr) l = false := by
  intro l
  induction l with
  | nil => intro _; rfl
  | cons c rest ih =>
      intro hb
      have hws : jsWs c = true := blank_mem_ws hb c (by simp)
      have hb' : isBlankLine rest = true := by
        simp only [isBlankLine, List.all_cons, Bool.and_eq_true] at hb ⊢
        exact hb.2
      rw [hasMarkerScan, ih hb', Bool.or_false]
      unfold markerMatchAt
      have hne : ('<' :: pr).isPrefixOf (c :: rest) = false := by
        by_cases hc : c = '<'
        · subst hc
          exact absurd hws (by decide)
        · simp [List.isPrefixOf, Ne.symm hc]
      rw [hne, Bool.false_and]

theorem hasPreserveMarker_of_blank {l : List Char} (hb : isBlankLine l = true) :
    hasPreserveMarker l = false := by
  unfold hasPreserveMarker
  rw [show "<p class=\"preserve-line-break\"".toList =
        '<' :: "p class=\"preserve-line-break\"".toList from rfl,
      show "<p data-preserve=\"true\"".toList =
        '<' :: "p data-preserve=\"true\"".toList from rfl,
      hasMarkerScan_of_blank _ l hb, hasMarkerScan_of_blank _ l hb]
  rfl

theorem filterLines_cons (p : Bool) (cur : List Char)
    (rest : List (List Char)) (prev : Option (List Char)) :
    filterLines p (cur :: rest) prev =
      (if p && hasPreserveMarker cur then
        [] :: filterLines p rest (some cur)
      else if isBlankLine cur &&
          (match rest.head? with | some nx => isHrLine nx | none => false) then
        cur :: filterLines p rest (some cur)
      else if isBlankLine cur &&
          (match rest.head? with | some nx => isTableStart nx | none => false) then
        cur :: filterLines p rest (some cur)
      else if isBlankLine cur &&
          (match prev with | some q => isHeadingLine q | none => false) then
        cur :: filterLines p rest (some cur)
      else if !isBlankLine cur then
        cur :: filterLines p rest (some cur)
      else filterLines p rest (some cur)) := rfl

theorem filterLines_keep_before_hr (p : Bool) (cur next : List Char)
    (rest : List (List Char)) (prev : Option (List Char))
    (hb : isBlankLine cur = true) (hhr : isHrLine next = true) :
    filterLines p (cur :: next :: rest) prev =
      cur :: filterLines p (next :: rest) (some cur) := by
  rw [filterLines_cons,
    if_neg (by simp [hasPreserveMarker_of_blank hb]),
    if_pos (by simp [hb, hhr])]

theorem filterLines_keep_after_heading (p : Bool) (cur : List Char)
    (rest : List (List Char)) (prevLine : List Char)
    (hb : isBlankLine cur = true) (hh : isHeadingLine prevLine = true) :
    filterLines p (cur :: rest) (some prevLine) =
      cur :: filterLines p rest (some cur) := by
  rw [filterLines_cons, if_neg (by simp [hasPreserveMarker_of_blank hb])]
  by_cases h2 : (isBlankLine cur &&
      match rest.head? with | some nx => isHrLine nx | none => false) = true
  · rw [if_pos h2]
  · rw [if_neg h2]
    by_cases h3 : (isBlankLine cur &&
        match rest.head? with | some nx => isTableStart nx | none => false) = true
    · rw [if_pos h3]
    · rw [if_neg h3, if_pos (by simp [hb, hh])]

/-- C6: with `removeEmptyLines` enabled, a blank line whose
original-sequence successor is a horizontal-rule line is kept, a blank
line whose original-sequence predecessor is a heading-marker line is kept,
and blank lines with no adjacency exception are removed: the blank after
the heading in `"# Heading\n\ntext"` survives, the blank before the rule
in `"a\n\n---\n"` survives, and `"a\n\n\nb"` filters to `"a\nb"`. -/
theorem empty_line_filter_preservation :
    (∀ (p : Bool) (cur next : List Char) (rest : List (List Char))
        (prev : Option (List Char)), isBlankLine cur = true → isHrLine next = true →
       filterLines p (cur :: next :: rest) prev =
         cur :: filterLines p (next :: rest) (some cur))
  ∧ (∀ (p : Bool) (cur : List Char) (rest : List (List Char)) (prevLine : List Char),
       isBlankLine cur = true → isHeadingLine prevLine = true →
       filterLines p (cur :: rest) (some prevLine) =
         cur :: filterLines p rest (some cur))
  ∧ (removeEmptyStage ⟨[], false, 1, false, false, false, true⟩
      ("# Heading\n\ntext".toList, false)).1 = "# Heading\n\ntext".toList
  ∧ (removeEmptyStage ⟨[], false, 1, false, false, false, true⟩
      ("a\n\n---\n".toList, false)).1 = "a\n\n---".toList
  ∧ (removeEmptyStage ⟨[], false, 1, false, false, false, true⟩
      ("a\n\n\nb".toList, false)).1 = "a\nb".toList :=
  ⟨filterLines_keep_before_hr, filterLines_keep_after_heading,
    by decide, by decide, by decide⟩

/-- Witness for C6: the blank line kept before a concrete horizontal
rule. -/
theorem empty_line_filter_preservation_witness :
    filterLines true [[], "---".toList] none =
      [] :: filterLines true ["---".toList] (some []) :=
  empty_line_filter_preservation.1 true [] "---".toList [] none
    (by decide) (by decide)

theorem hasTripleNl_cons_of_ne {c : Char} (hc : c ≠ '\n') :
    ∀ l : List Char, hasTripleNl (c :: l) = hasTripleNl l := by
  intro l
  match l with
  | [] => rfl
  | [d] => rfl
  | d :: e :: l3 => simp [hasTripleNl, hc]

theorem collapseAux_head? : ∀ (fuel : Nat) (t : List Char),
    (collapseAux fuel t).head? = t.head? := by
  intro fuel t
  match fuel, t with
  | 0, t => rfl
  | _ + 1, [] => rfl
  | fuel + 1, c :: rest =>
      by_cases h : c = '\n'
      · subst h
        rw [collapseAux, if_pos rfl]
        by_cases h3 : 3 ≤ (rest.takeWhile (· = '\n')).length + 1 <;>
          simp [h3]
      · rw [collapseAux, if_neg h]
        rfl

theorem hasTripleNl_cons₃ (c1 c2 c3 : Char) (rest : List Char) :
    hasTripleNl (c1 :: c2 :: c3 :: rest) =
      ((decide (c1 = '\n') && decide (c2 = '\n') && decide (c3 = '\n')) ||
        hasTripleNl (c2 :: c3 :: rest)) := rfl

theorem collapseAux_cons (fuel : Nat) (c : Char) (rest : List Char) :
    collapseAux (fuel + 1) (c :: rest) =
      (if c = '\n' then
        (if 3 ≤ (rest.takeWhile (· = '\n')).length + 1 then ['\n', '\n']
         else '\n' :: rest.takeWhile (· = '\n')) ++
          collapseAux fuel (rest.drop (rest.takeWhile (· = '\n')).length)
      else c :: collapseAux fuel rest) := rfl

theorem hasTripleNl_chunk (out : List Char)
    (hh : ∀ y, out.head? = some y → y ≠ '\n')
    (ht : hasTripleNl out = false) :
    hasTripleNl ('\n' :: out) = false ∧ hasTripleNl ('\n' :: '\n' :: out) = false := by
  match out with
  | [] => exact ⟨rfl, rfl⟩
  | y :: ys =>
      have hy : y ≠ '\n' := hh y rfl
      have h1 : hasTripleNl ('\n' :: y :: ys) = false := by
        match ys with
        | [] => rfl
        | z :: zs =>
            rw [hasTripleNl_cons₃, ht]
            simp [hy]
      refine ⟨h1, ?_⟩
      rw [hasTripleNl_cons₃, h1]
      simp [hy]

theorem collapseAux_no_triple : ∀ (fuel : Nat) (t : List Char),
    t.length ≤ fuel → hasTripleNl (collapseAux fuel t) = false := by
  intro fuel
  induction fuel with
  | zero =>
      intro t ht
      have : t = [] := List.length_eq_zero.mp (Nat.le_zero.mp ht)
      subst this
      rfl
  | succ fuel ih =>
      intro t ht
      match t with
      | [] => rfl
      | c :: rest =>
          by_cases h : c = '\n'
          · subst h
            rw [collapseAux_cons, if_pos rfl]
            have hlen : (rest.drop (rest.takeWhile (· = '\n')).length).length ≤ fuel := by
              have := List.length_drop ((rest.takeWhile (· = '\n')).length) rest
              simp only [List.length_cons] at ht
              omega
            have hrec := ih _ hlen
            have hhead : ∀ y,
                (collapseAux fuel (rest.drop (rest.takeWhile (· = '\n')).length)).head? =
                  some y → y ≠ '\n' := by
              intro y hy
              rw [collapseAux_head?, drop_takeWhile_length] at hy
              have := head_dropWhile_false (· = '\n') rest y hy
              simpa using this
            have hch := hasTripleNl_chunk _ hhead hrec
            by_cases h3 : 3 ≤ (rest.takeWhile (· = '\n')).length + 1
            · rw [if_pos h3]
              exact hch.2
            · rw [if_neg h3]
              have hlen1 : (rest.takeWhile (· = '\n')).length ≤ 1 := by omega
              rcases hrun : rest.takeWhile (· = '\n') with _ | ⟨x, run2⟩
              · simpa [hrun] using hch.1
              · have hx : x = '\n' := by
                  have : x ∈ rest.takeWhile (· = '\n') := by rw [hrun]; simp
                  simpa using List.mem_takeWhile_imp this
                have hnil : run2 = [] := by
                  rw [hrun] at hlen1
                  simp only [List.length_cons] at hlen1
                  exact List.length_eq_zero.mp (by omega)
                subst hnil
                subst hx
                simpa [hrun] using hch.2
          · rw [collapseAux_cons, if_neg h]
            rw [hasTripleNl_cons_of_ne h]
            apply ih
            simp only [List.length_cons] at ht
            omega

/-- C7: the blank-line collapser (enabled, with the empty-line filter
off) first normalizes line endings and then leaves no run of three or
more consecutive line breaks: its output is `collapseRuns (normalizeCRLF
text)` and contains no three consecutive `'\n'`. -/
theorem collapse_stage_bound (s : Settings) (text : List Char) (flag : Bool)
    (hc : s.convertToSingleSpaced = true) (hr : s.removeEmptyLines = false) :
    (collapseStage s (text, flag)).1 = collapseRuns (normalizeCRLF text) ∧
    hasTripleNl (collapseStage s (text, flag)).1 = false := by
  have hstage : (collapseStage s (text, flag)).1 = collapseRuns (normalizeCRLF text) := by
    unfold collapseStage
    rw [hc, hr]
    by_cases hne : collapseRuns (normalizeCRLF text) ≠ normalizeCRLF text <;> simp [hne]
  refine ⟨hstage, ?_⟩
  rw [hstage]
  exact collapseAux_no_triple _ _ (Nat.le_refl _)

/-- Witness for C7 at a concrete input with a four-newline run. -/
theorem collapse_stage_bound_witness :
    (collapseStage ⟨[], false, 1, false, false, true, false⟩
        ("a\n\n\n\nb".toList, false)).1 = collapseRuns (normalizeCRLF "a\n\n\n\nb".toList) ∧
    hasTripleNl (collapseStage ⟨[], false, 1, false, false, true, false⟩
        ("a\n\n\n\nb".toList, false)).1 = false :=
  collapse_stage_bound ⟨[], false, 1, false, false, true, false⟩
    "a\n\n\n\nb".toList false rfl rfl

/-- C10: when the blank-line collapser or the empty-line filter runs, the
text is first CRLF-normalized, and the before/after snapshot for change
detection is taken after that normalization, so the normalization alone
never sets the changed flag: with every other stage disabled the pipeline
result is exactly the stage output compared against the NORMALIZED text,
and on the concrete input `"a\r\nb"` both configurations return the
changed text `"a\nb"` together with `changed = false`. -/
theorem crlf_normalization_never_sets_flag :
    (∀ (applyRegex : List Char → List Char → List Char → Option (List Char))
        (text : List Char),
       transformMarkdown applyRegex text ⟨[], false, 1, false, false, true, false⟩ 0 false =
         (collapseRuns (normalizeCRLF text),
          if collapseRuns (normalizeCRLF text) ≠ normalizeCRLF text then true else false))
  ∧ (∀ (applyRegex : List Char → List Char → List Char → Option (List Char))
        (text : List Char),
       transformMarkdown applyRegex text ⟨[], false, 1, false, false, false, true⟩ 0 false =
         (joinNl (filterLines true (splitNl (normalizeCRLF text)) none),
          false || decide (joinNl (filterLines true (splitNl (normalizeCRLF text)) none) ≠
            normalizeCRLF text)))
  ∧ transformMarkdown (fun _ _ _ => none) "a\r\nb".toList
      ⟨[], false, 1, false, false, true, false⟩ 0 false = ("a\nb".toList, false)
  ∧ transformMarkdown (fun _ _ _ => none) "a\r\nb".toList
      ⟨[], false, 1, false, false, false, true⟩ 0 false = ("a\nb".toList, false)
  ∧ "a\nb".toList ≠ "a\r\nb".toList :=
  ⟨fun _ _ => rfl, fun _ _ => rfl, by decide, by decide, by decide⟩

theorem lastFlag_cons (f : Bool) (p : Nat × Nat) (t : List (Nat × Nat)) :
    lastFlag f (p :: t) = lastFlag (decide (p.2 ≠ p.1)) t := rfl

theorem occTrace_cons (rule : Int → Bool → Nat → Nat × Int × Bool)
    (k : Nat) (ls : List Nat) (d : Int) (casc : Bool) :
    occTrace rule (k :: ls) d casc =
      (k, (rule d casc k).1) ::
        occTrace rule ls (rule d casc k).2.1 (rule d casc k).2.2 := rfl

theorem lastFlag_append_single :
    ∀ (t : List (Nat × Nat)) (f : Bool) (q : Nat × Nat),
      lastFlag f (t ++ [q]) = decide (q.2 ≠ q.1) := by
  intro t
  induction t with
  | nil => intro f q; rfl
  | cons p t2 ih =>
      intro f q
      rw [List.cons_append, lastFlag_cons, ih]

theorem scanHeadingsAux_flag (rule : Int → Bool → Nat → Nat × Int × Bool) :
    ∀ (fuel : Nat) (cs : List Char) (b : Bool) (d : Int) (casc f : Bool),
      (scanHeadingsAux rule fuel cs b d casc f).2 =
        lastFlag f (occTrace rule (occLevelsAux fuel cs b) d casc) := by
  intro fuel
  induction fuel with
  | zero => intro cs b d casc f; rfl
  | succ fuel ih =>
      intro cs b d casc f
      match cs with
      | [] => rfl
      | c :: rest =>
          by_cases hg : headingGuard b (c :: rest) = true
          · simp only [scanHeadingsAux, occLevelsAux, hg, if_true]
            rw [ih, occTrace_cons, lastFlag_cons]
          · simp only [scanHeadingsAux, occLevelsAux, hg, Bool.false_eq_true, if_false]
            exact ih rest (isLineTerm c) d casc f

/-- C4: in either cascade mode the heading normalizer's change flag is
overwritten at every heading occurrence with `newLevel != currentLevel`,
so after the stage it equals exactly the change-state of the FINAL
occurrence of the document-order trace — an earlier occurrence may be
rewritten while the stage still reports no change. -/
theorem heading_flag_is_last_occurrence (s : Settings) (contextLevel : Nat)
    (text : List Char) :
    (∀ q : Nat × Nat, s.contextualCascade = true → 0 < contextLevel →
       (occTrace (contextualRule contextLevel) (occLevels text) (-1) false).getLast? =
         some q →
       (headingStage s contextLevel text false).2 = decide (q.2 ≠ q.1))
  ∧ (∀ q : Nat × Nat, (s.contextualCascade = true ∧ 0 < contextLevel → False) →
       1 < s.maxHeadingLevel →
       (occTrace (maxLevelRule s.maxHeadingLevel s.cascadeHeadingLevels)
         (occLevels text) (-1) false).getLast? = some q →
       (headingStage s contextLevel text false).2 = decide (q.2 ≠ q.1)) := by
  constructor
  · intro q hcc hcl hlast
    obtain ⟨t2, ht2⟩ := List.getLast?_eq_some_iff.mp hlast
    unfold headingStage
    rw [hcc]
    simp only [Bool.true_and, decide_eq_true_eq, hcl, if_pos]
    unfold scanHeadings
    rw [scanHeadingsAux_flag]
    unfold occLevels at ht2
    rw [ht2, lastFlag_append_single]
  · intro q hna hmax hlast
    obtain ⟨t2, ht2⟩ := List.getLast?_eq_some_iff.mp hlast
    unfold headingStage
    have hcond : (s.contextualCascade && decide (0 < contextLevel)) = false := by
      rcases h : s.contextualCascade with _ | _
      · simp
      · rcases hcl : decide (0 < contextLevel) with _ | _
        · simp
        · exact absurd ⟨h, of_decide_eq_true hcl⟩ hna
    rw [hcond]
    simp only [Bool.false_eq_true, if_false]
    rw [if_pos (by simpa using hmax)]
    unfold scanHeadings
    rw [scanHeadingsAux_flag]
    unfold occLevels at ht2
    rw [ht2, lastFlag_append_single]

/-- Witness for C4: on `"# a\n###### b"` with context level 1, the first
heading is rewritten from level 1 to 2 but the final occurrence is
unchanged (6 → 6), so the stage reports no change. -/
theorem heading_flag_is_last_occurrence_witness :
    (headingStage ⟨[], true, 1, false, false, false, false⟩ 1
      "# a\n###### b".toList false).2 = decide ((6 : Nat) ≠ (6 : Nat)) :=
  (heading_flag_is_last_occurrence ⟨[], true, 1, false, false, false, false⟩ 1
    "# a\n###### b".toList).1 (6, 6) rfl (by decide) (by decide)

theorem leadHashes_replicate_append {y : Char} (hy : y ≠ '#') (n : Nat) (l : List Char) :
    leadHashes (List.replicate n '#' ++ y :: l) = n := by
  unfold leadHashes
  induction n with
  | zero => simp [List.takeWhile_cons, hy]
  | succ n ih =>
      rw [List.replicate_succ, List.cons_append, List.takeWhile_cons]
      simpa using ih

theorem scanHeadingsAux_cons (rule : Int → Bool → Nat → Nat × Int × Bool)
    (fuel : Nat) (c : Char) (rest : List Char) (b : Bool) (d : Int) (casc f : Bool) :
    scanHeadingsAux rule (fuel + 1) (c :: rest) b d casc f =
      (if headingGuard b (c :: rest) then
        (List.replicate (rule d casc (leadHashes (c :: rest))).1 '#' ++
          ' ' :: (scanHeadingsAux rule fuel
            ((c :: rest).drop (leadHashes (c :: rest) + 1))
            (termAt (c :: rest) (leadHashes (c :: rest)))
            (rule d casc (leadHashes (c :: rest))).2.1
            (rule d casc (leadHashes (c :: rest))).2.2
            (decide ((rule d casc (leadHashes (c :: rest))).1 ≠
              leadHashes (c :: rest)))).1,
         (scanHeadingsAux rule fuel
            ((c :: rest).drop (leadHashes (c :: rest) + 1))
            (termAt (c :: rest) (leadHashes (c :: rest)))
            (rule d casc (leadHashes (c :: rest))).2.1
            (rule d casc (leadHashes (c :: rest))).2.2
            (decide ((rule d casc (leadHashes (c :: rest))).1 ≠
              leadHashes (c :: rest)))).2)
      else
        (c :: (scanHeadingsAux rule fuel rest (isLineTerm c) d casc f).1,
         (scanHeadingsAux rule fuel rest (isLineTerm c) d casc f).2)) := rfl

theorem scanHeadingsAux_id_flag (rule : Int → Bool → Nat → Nat × Int × Bool) :
    ∀ (fuel : Nat) (cs : List Char) (b : Bool) (d : Int) (casc : Bool),
      (scanHeadingsAux rule fuel cs b d casc false).1 = cs →
      (scanHeadingsAux rule fuel cs b d casc false).2 = false := by
  intro fuel
  induction fuel with
  | zero => intro cs b d casc _; rfl
  | succ fuel ih =>
      intro cs b d casc hid
      match cs with
      | [] => rfl
      | c :: rest =>
          by_cases hg : headingGuard b (c :: rest) = true
          · rw [scanHeadingsAux_cons, if_pos hg] at hid ⊢
            have hws : wsAt (c :: rest) (leadHashes (c :: rest)) = true := by
              unfold headingGuard at hg
              simp only [Bool.and_eq_true] at hg
              exact hg.2
            have hlt : leadHashes (c :: rest) < (c :: rest).length := by
              unfold wsAt at hws
              rcases hget : (c :: rest).get? (leadHashes (c :: rest)) with _ | w
              · rw [hget] at hws; exact absurd hws (by simp)
              · exact (List.get?_eq_some.mp hget).1
            set k := leadHashes (c :: rest) with hk
            set r := rule d casc k with hr
            simp only at hid
            have hn : r.1 = k := by
              have := congrArg leadHashes hid
              rwa [leadHashes_replicate_append (by decide)] at this
            have hflag : decide (r.1 ≠ k) = false := by simp [hn]
            rw [hflag] at hid ⊢
            have hdrop : (List.replicate r.1 '#' ++
                ' ' :: (scanHeadingsAux rule fuel ((c :: rest).drop (k + 1))
                  (termAt (c :: rest) k) r.2.1 r.2.2 false).1).drop r.1 =
                (c :: rest).drop r.1 := by rw [hid]
            rw [List.drop_left' (by simp), hn, List.drop_eq_getElem_cons hlt] at hdrop
            have htail : (scanHeadingsAux rule fuel ((c :: rest).drop (k + 1))
                (termAt (c :: rest) k) r.2.1 r.2.2 false).1 =
                (c :: rest).drop (k + 1) := by
              have := congrArg List.tail hdrop
              simpa using this
            exact ih _ _ _ _ htail
          · rw [scanHeadingsAux_cons, if_neg hg] at hid ⊢
            have : (scanHeadingsAux rule fuel rest (isLineTerm c) d casc false).1 = rest := by
              simpa using hid
            exact ih _ _ _ _ this

theorem headingStage_id_flag (s : Settings) (contextLevel : Nat) (text : List Char)
    (hid : (headingStage s contextLevel text false).1 = text) :
    (headingStage s contextLevel text false).2 = false := by
  unfold headingStage scanHeadings at hid ⊢
  by_cases h1 : (s.contextualCascade && decide (0 < contextLevel)) = true
  · rw [if_pos h1] at hid ⊢
    exact scanHeadingsAux_id_flag _ _ _ _ _ _ hid
  · rw [if_neg h1] at hid ⊢
    by_cases h2 : decide (1 < s.maxHeadingLevel) = true
    · rw [if_pos h2] at hid ⊢
      exact scanHeadingsAux_id_flag _ _ _ _ _ _ hid
    · rw [if_neg h2]

theorem collapseAux_length_le : ∀ (fuel : Nat) (t : List Char),
    (collapseAux fuel t).length ≤ t.length := by
  intro fuel
  induction fuel with
  | zero => intro t; exact Nat.le_refl _
  | succ fuel ih =>
      intro t
      match t with
      | [] => exact Nat.le_refl _
      | c :: rest =>
          by_cases h : c = '\n'
          · subst h
            rw [collapseAux_cons, if_pos rfl]
            have hrun : (rest.takeWhile (· = '\n')).length ≤ rest.length :=
              (List.takeWhile_prefix _).length_le
            have hdrop := ih (rest.drop (rest.takeWhile (· = '\n')).length)
            rw [List.length_append, List.length_drop] at *
            by_cases h3 : 3 ≤ (rest.takeWhile (· = '\n')).length + 1
            · rw [if_pos h3]
              simp only [List.length_cons, List.length_nil]
              omega
            · rw [if_neg h3]
              simp only [List.length_cons]
              omega
          · rw [collapseAux_cons, if_neg h]
            simpa using ih rest

theorem collapseStage_id_flag (s : Settings) (tf : List Char × Bool)
    (hid : (collapseStage s tf).1 = tf.1) :
    (collapseStage s tf).2 = tf.2 := by
  unfold collapseStage at hid ⊢
  by_cases hg : (s.convertToSingleSpaced && !s.removeEmptyLines) = true
  · rw [if_pos hg] at hid ⊢
    simp only at hid ⊢
    have hnorm : normalizeCRLF tf.1 = tf.1 := by
      by_contra hne
      have h1 := normalizeCRLF_lt_of_ne tf.1 hne
      have h2 := collapseAux_length_le (normalizeCRLF tf.1).length (normalizeCRLF tf.1)
      have h3 := congrArg List.length hid
      unfold collapseRuns at h3
      omega
    rw [if_neg (fun hcon => hcon (hid.trans hnorm.symm))]
  · rw [if_neg hg] at hid ⊢

theorem joinNl_length_cons₂ (a b : List Char) (ls : List (List Char)) :
    (joinNl (a :: b :: ls)).length = a.length + 1 + (joinNl (b :: ls)).length := by
  rw [joinNl_cons₂]
  simp only [List.length_append, List.length_cons]
  omega

theorem joinNl_le_cons (cur : List Char) (rest : List (List Char)) :
    (joinNl rest).length ≤ (joinNl (cur :: rest)).length := by
  cases rest with
  | nil => simp [joinNl]
  | cons r rs => rw [joinNl_length_cons₂]; omega

theorem joinNl_len_mono (x cur : List Char) (fr rest : List (List Char))
    (hx : x.length ≤ cur.length)
    (hnil : fr ≠ [] → rest ≠ [])
    (hrec : (joinNl fr).length ≤ (joinNl rest).length) :
    (joinNl (x :: fr)).length ≤ (joinNl (cur :: rest)).length := by
  cases fr with
  | nil =>
      cases rest with
      | nil => simpa [joinNl] using hx
      | cons r rs =>
          rw [joinNl_single, joinNl_length_cons₂]
          omega
  | cons f fs =>
      have hrest : rest ≠ [] := hnil (by simp)
      cases rest with
      | nil => exact absurd rfl hrest
      | cons r rs =>
          rw [joinNl_length_cons₂, joinNl_length_cons₂]
          have := hrec
          omega

theorem filterLines_join_length (p : Bool) :
    ∀ (ls : List (List Char)) (prev : Option (List Char)),
      (joinNl (filterLines p ls prev)).length ≤ (joinNl ls).length := by
  intro ls
  induction ls with
  | nil => intro prev; exact Nat.le_refl _
  | cons cur rest ih =>
      intro prev
      have hnil : filterLines p rest (some cur) ≠ [] → rest ≠ [] := by
        intro hF hrest
        exact hF (by rw [hrest]; rfl)
      rw [filterLines_cons]
      split_ifs with h1 h2 h3 h4 h5
      · exact joinNl_len_mono [] cur _ rest (by simp) hnil (ih _)
      · exact joinNl_len_mono cur cur _ rest (Nat.le_refl _) hnil (ih _)
      · exact joinNl_len_mono cur cur _ rest (Nat.le_refl _) hnil (ih _)
      · exact joinNl_len_mono cur cur _ rest (Nat.le_refl _) hnil (ih _)
      · exact joinNl_len_mono cur cur _ rest (Nat.le_refl _) hnil (ih _)
      · exact Nat.le_trans (ih _) (joinNl_le_cons cur rest)

theorem removeEmptyStage_id_flag (s : Settings) (tf : List Char × Bool)
    (hid : (removeEmptyStage s tf).1 = tf.1) :
    (removeEmptyStage s tf).2 = tf.2 := by
  unfold removeEmptyStage at hid ⊢
  by_cases hg : s.removeEmptyLines = true
  · rw [if_pos hg] at hid ⊢
    simp only at hid ⊢
    have hlen : (joinNl (filterLines (!s.stripLineBreaks)
        (splitNl (normalizeCRLF tf.1)) none)).length ≤ (normalizeCRLF tf.1).length := by
      have h1 := filterLines_join_length (!s.stripLineBreaks)
        (splitNl (normalizeCRLF tf.1)) none
      rwa [joinNl_splitNl] at h1
    have hnorm : normalizeCRLF tf.1 = tf.1 := by
      by_contra hne
      have h2 := normalizeCRLF_lt_of_ne tf.1 hne
      have h3 := congrArg List.length hid
      omega
    have hout : joinNl (filterLines (!s.stripLineBreaks)
        (splitNl (normalizeCRLF tf.1)) none) = normalizeCRLF tf.1 :=
      hid.trans hnorm.symm
    rw [hout]
    simp
  · rw [if_neg hg] at hid ⊢

theorem applyRules_cons
    (oracle : List Char → List Char → List Char → Option (List Char))
    (r : Rule) (rest : List Rule) (text : List Char) (flag : Bool) :
    applyRules oracle (r :: rest) text flag =
      (match oracle r.pattern (decodeReplacement r.replacement) text with
      | none => applyRules oracle rest text flag
      | some t2 => applyRules oracle rest t2 (if t2 ≠ text then true else flag)) := rfl

theorem applyRules_id_flag
    (oracle : List Char → List Char → List Char → Option (List Char)) :
    ∀ (rules : List Rule) (t : List Char) (f : Bool),
      (∀ r ∈ rules, ∀ u, oracle r.pattern (decodeReplacement r.replacement) u = none ∨
        oracle r.pattern (decodeReplacement r.replacement) u = some u) →
      (applyRules oracle rules t f).2 = f := by
  intro rules
  induction rules with
  | nil => intro t f _; rfl
  | cons r rest ih =>
      intro t f hall
      rw [applyRules_cons]
      rcases hall r (by simp) t with h | h
      · rw [h]
        exact ih t f (fun r2 hr2 => hall r2 (by simp [hr2]))
      · rw [h]
        simp only
        rw [if_neg (fun hc => hc rfl)]
        exact ih t f (fun r2 hr2 => hall r2 (by simp [hr2]))

theorem applyRules_mono
    (oracle : List Char → List Char → List Char → Option (List Char)) :
    ∀ (rules : List Rule) (t : List Char),
      (applyRules oracle rules t true).2 = true := by
  intro rules
  induction rules with
  | nil => intro t; rfl
  | cons r rest ih =>
      intro t
      rw [applyRules_cons]
      rcases ho : oracle r.pattern (decodeReplacement r.replacement) t with _ | t2
      · exact ih t
      · simp only
        rw [ite_self]
        exact ih t2

theorem applyRules_changed
    (oracle : List Char → List Char → List Char → Option (List Char)) :
    ∀ (rules : List Rule) (t : List Char) (f : Bool),
      (applyRules oracle rules t f).1 ≠ t → (applyRules oracle rules t f).2 = true := by
  intro rules
  induction rules with
  | nil => intro t f h; exact absurd rfl h
  | cons r rest ih =>
      intro t f h
      cases ho : oracle r.pattern (decodeReplacement r.replacement) t with
      | none =>
          rw [applyRules_cons, ho] at h
          rw [applyRules_cons, ho]
          exact ih t f h
      | some t2 =>
          rw [applyRules_cons, ho] at h
          rw [applyRules_cons, ho]
          have h2 : (applyRules oracle rest t2 (if t2 ≠ t then true else f)).1 ≠ t := h
          show (applyRules oracle rest t2 (if t2 ≠ t then true else f)).2 = true
          by_cases he : t2 = t
          · subst he
            rw [if_neg (fun hc => hc rfl)] at h2 ⊢
            exact ih t2 f h2
          · rw [if_pos he]
            exact applyRules_mono oracle rest t2

theorem collapseStage_mono (s : Settings) (tf : List Char × Bool)
    (h : tf.2 = true) : (collapseStage s tf).2 = true := by
  unfold collapseStage
  by_cases hg : (s.convertToSingleSpaced && !s.removeEmptyLines) = true
  · rw [if_pos hg]
    simp only
    split_ifs
    · rfl
    · exact h
  · rw [if_neg hg]
    exact h

theorem removeEmptyStage_mono (s : Settings) (tf : List Char × Bool)
    (h : tf.2 = true) : (removeEmptyStage s tf).2 = true := by
  unfold removeEmptyStage
  by_cases hg : s.removeEmptyLines = true
  · rw [if_pos hg]
    simp [h]
  · rw [if_neg hg]
    exact h

theorem transformMarkdown_eq
    (oracle : List Char → List Char → List Char → Option (List Char))
    (text : List Char) (s : Settings) (cl : Nat) (em : Bool) :
    transformMarkdown oracle text s cl em =
      applyRules oracle s.markdownRegexReplacements
        (removeEmptyStage s (collapseStage s (stage12 s cl em text))).1
        (removeEmptyStage s (collapseStage s (stage12 s cl em text))).2 := rfl

/-- Whether some rule of the substitution pipeline alters the text at its
point in the pipeline: the disjunction, over the loop of source lines
209-230, of the per-rule `originalMarkdown !== markdown` events that set
`appliedTransformations` at line 224 (a failing rule alters nothing and a
later rule operates on the previous rule's output). -/
def anyRuleChanges (applyRegex : List Char → List Char → List Char → Option (List Char)) :
    List Rule → List Char → Bool
  | [], _ => false
  | r :: rest, text =>
      match applyRegex r.pattern (decodeReplacement r.replacement) text with
      | none => anyRuleChanges applyRegex rest text
      | some t2 => decide (t2 ≠ text) || anyRuleChanges applyRegex rest t2

theorem anyRuleChanges_cons
    (oracle : List Char → List Char → List Char → Option (List Char))
    (r : Rule) (rest : List Rule) (text : List Char) :
    anyRuleChanges oracle (r :: rest) text =
      (match oracle r.pattern (decodeReplacement r.replacement) text with
      | none => anyRuleChanges oracle rest text
      | some t2 => decide (t2 ≠ text) || anyRuleChanges oracle rest t2) := rfl

/-- The substitution pipeline's flag is exactly the incoming flag OR-ed
with the per-rule alteration events. -/
theorem applyRules_flag_or
    (oracle : List Char → List Char → List Char → Option (List Char)) :
    ∀ (rules : List Rule) (t : List Char) (f : Bool),
      (applyRules oracle rules t f).2 = (f || anyRuleChanges oracle rules t) := by
  intro rules
  induction rules with
  | nil => intro t f; simp [applyRules, anyRuleChanges]
  | cons r rest ih =>
      intro t f
      rw [applyRules_cons, anyRuleChanges_cons]
      cases ho : oracle r.pattern (decodeReplacement r.replacement) t with
      | none => exact ih t f
      | some t2 =>
          show (applyRules oracle rest t2 (if t2 ≠ t then true else f)).2 =
            (f || (decide (t2 ≠ t) || anyRuleChanges oracle rest t2))
          rw [ih t2]
          by_cases he : t2 = t
          · subst he
            rw [if_neg (fun hc => hc rfl)]
            simp
          · rw [if_pos he]
            simp [he]

/-- Counterexample to C3: with contextual cascade at context level 1 on
`"# a\n###### b"`, the heading stage rewrites the first heading (1 → 2) —
the returned text differs from the input — but the change flag is
overwritten to `false` at the final unchanged occurrence (6 → 6), so the
pipeline returns an altered text together with `changed = false`. -/
theorem changed_flag_counterexample :
    (transformMarkdown (fun _ _ _ => none) "# a\n###### b".toList
       ⟨[], true, 1, false, false, false, false⟩ 1 false).1 ≠ "# a\n###### b".toList ∧
    (transformMarkdown (fun _ _ _ => none) "# a\n###### b".toList
       ⟨[], true, 1, false, false, false, false⟩ 1 false).2 = false := by
  constructor
  · decide
  · decide

/-- C3 (amended): (i) when no stage alters the text — for the
substitution pipeline: every rule either fails or returns the text
unchanged — the changed flag is `false`; and the flag is `true` whenever
(ii) the escaper alters the text, (iii) the collapse step proper alters
the CRLF-normalized text, (iv) the empty-line filter alters the
CRLF-normalized text, or (v) any substitution rule alters the text at its
point in the pipeline — even if a later rule or stage restores an earlier
text — and in particular (vi) whenever the final text differs from the
pre-substitution text.  The heading normalizer is
the exception the counterexample exhibits: it reports a change only
according to its final heading occurrence, and CRLF normalization inside
stages 3–4 never sets the flag. -/
theorem changed_flag_amended :
    (∀ (oracle : List Char → List Char → List Char → Option (List Char))
        (s : Settings) (cl : Nat) (em : Bool) (text : List Char),
       (stage12 s cl em text).1 = text →
       (collapseStage s (stage12 s cl em text)).1 = (stage12 s cl em text).1 →
       (removeEmptyStage s (collapseStage s (stage12 s cl em text))).1 =
         (collapseStage s (stage12 s cl em text)).1 →
       (∀ r ∈ s.markdownRegexReplacements, ∀ u,
          oracle r.pattern (decodeReplacement r.replacement) u = none ∨
          oracle r.pattern (decodeReplacement r.replacement) u = some u) →
       (transformMarkdown oracle text s cl em).2 = false)
  ∧ (∀ (oracle : List Char → List Char → List Char → Option (List Char))
        (s : Settings) (cl : Nat) (text : List Char),
       escapeStage text ≠ text →
       (transformMarkdown oracle text s cl true).2 = true)
  ∧ (∀ (oracle : List Char → List Char → List Char → Option (List Char))
        (s : Settings) (cl : Nat) (em : Bool) (text : List Char),
       s.convertToSingleSpaced = true → s.removeEmptyLines = false →
       collapseRuns (normalizeCRLF (stage12 s cl em text).1) ≠
         normalizeCRLF (stage12 s cl em text).1 →
       (transformMarkdown oracle text s cl em).2 = true)
  ∧ (∀ (oracle : List Char → List Char → List Char → Option (List Char))
        (s : Settings) (cl : Nat) (em : Bool) (text : List Char),
       s.removeEmptyLines = true →
       joinNl (filterLines (!s.stripLineBreaks)
           (splitNl (normalizeCRLF (collapseStage s (stage12 s cl em text)).1)) none) ≠
         normalizeCRLF (collapseStage s (stage12 s cl em text)).1 →
       (transformMarkdown oracle text s cl em).2 = true)
  ∧ (∀ (oracle : List Char → List Char → List Char → Option (List Char))
        (s : Settings) (cl : Nat) (em : Bool) (text : List Char),
       anyRuleChanges oracle s.markdownRegexReplacements
         (removeEmptyStage s (collapseStage s (stage12 s cl em text))).1 = true →
       (transformMarkdown oracle text s cl em).2 = true)
  ∧ (∀ (oracle : List Char → List Char → List Char → Option (List Char))
        (s : Settings) (cl : Nat) (em : Bool) (text : List Char),
       (transformMarkdown oracle text s cl em).1 ≠
         (removeEmptyStage s (collapseStage s (stage12 s cl em text))).1 →
       (transformMarkdown oracle text s cl em).2 = true) := by
  refine ⟨?_, ?_, ?_, ?_, ?_, ?_⟩
  · intro oracle s cl em text h1 h2 h3 hall
    rw [transformMarkdown_eq]
    rw [applyRules_id_flag oracle s.markdownRegexReplacements _ _ hall]
    rw [removeEmptyStage_id_flag s _ h3, collapseStage_id_flag s _ h2]
    have h12flag : (stage12 s cl em text).2 = false := by
      unfold stage12 at h1 ⊢
      by_cases hem : em = true
      · rw [if_pos hem] at h1 ⊢
        unfold escapeStagePair at h1 ⊢
        simp only at h1 ⊢
        simp [h1]
      · rw [if_neg hem] at h1 ⊢
        exact headingStage_id_flag s cl text h1
    exact h12flag
  · intro oracle s cl text h
    rw [transformMarkdown_eq]
    have hst : (removeEmptyStage s (collapseStage s (stage12 s cl true text))).2 = true := by
      apply removeEmptyStage_mono
      apply collapseStage_mono
      unfold stage12 escapeStagePair
      simp [h]
    rw [hst]
    exact applyRules_mono oracle _ _
  · intro oracle s cl em text hc hr h
    rw [transformMarkdown_eq]
    have hst : (removeEmptyStage s (collapseStage s (stage12 s cl em text))).2 = true := by
      apply removeEmptyStage_mono
      unfold collapseStage
      rw [if_pos (by simp [hc, hr])]
      simp only
      rw [if_pos h]
    rw [hst]
    exact applyRules_mono oracle _ _
  · intro oracle s cl em text hr h
    rw [transformMarkdown_eq]
    have hst : (removeEmptyStage s (collapseStage s (stage12 s cl em text))).2 = true := by
      unfold removeEmptyStage
      rw [if_pos hr]
      simp [h]
    rw [hst]
    exact applyRules_mono oracle _ _
  · intro oracle s cl em text h
    rw [transformMarkdown_eq, applyRules_flag_or, h]
    simp
  · intro oracle s cl em text h
    rw [transformMarkdown_eq] at h ⊢
    exact applyRules_changed oracle _ _ _ h

/-- Witness for the amended C3 at a concrete no-op input. -/
theorem changed_flag_amended_witness :
    (transformMarkdown (fun _ _ _ => none) "x".toList
      ⟨[], false, 1, false, false, false, false⟩ 0 false).2 = false :=
  changed_flag_amended.1 (fun _ _ _ => none)
    ⟨[], false, 1, false, false, false, false⟩ 0 false "x".toList
    rfl rfl rfl (fun r hr => absurd hr (List.not_mem_nil r))

/-- Whether `pat` occurs as a contiguous subsequence of the text. -/
def containsSeq (pat : List Char) : List Char → Bool
  | [] => pat.isEmpty
  | c :: rest => pat.isPrefixOf (c :: rest) || containsSeq pat rest

/-- Counterexample to C8: on input `` `*a*` `` the emphasis pass and the
backtick pass rewrite the inside of the inline code span, so the content
`*a*` that was inside the input's code span is not byte-identical after
escaping — it does not even occur in the output. -/
theorem escape_code_span_counterexample :
    escapeStage "`*a*`".toList = "\\`\\*a\\*\\`".toList ∧
    containsSeq "*a*".toList (escapeStage "`*a*`".toList) = false := by
  exact ⟨by decide, by decide⟩

theorem tryTag_cons (c : Char) (rest : List Char) :
    tryTag (c :: rest) =
      (if c = '<' then
        (match rest.drop (if rest.head? = some '/' then 1 else 0) with
        | a :: r2 =>
            if isAsciiLetter a then
              if r2.get? ((r2.takeWhile (· ≠ '>')).length) = some '>' then
                some (1 + (if rest.head? = some '/' then 1 else 0) + 1 +
                    (r2.takeWhile (· ≠ '>')).length + 1,
                  '`' :: ((c :: rest).take (1 +
                    (if rest.head? = some '/' then 1 else 0) + 1 +
                    (r2.takeWhile (· ≠ '>')).length + 1) ++ ['`']))
              else none
            else none
        | [] => none)
      else none) := rfl

theorem tagPassM_cons (b : Bool) (c : Char) (rest : List Char) :
    tagPassM b (c :: rest) =
      (if c = '`' then
        (match findTick rest with
         | some d => some (d + 2, (c :: rest).take (d + 2))
         | none => tryTag (c :: rest))
      else tryTag (c :: rest)) := rfl

theorem tryTag_some (cs : List Char) (n : Nat) (out : List Char)
    (h : tryTag cs = some (n, out)) :
    out = '`' :: (cs.take n ++ ['`']) ∧ 1 ≤ n := by
  match cs with
  | [] => exact absurd h (by simp [tryTag])
  | c :: rest =>
      rw [tryTag_cons] at h
      by_cases hc : c = '<'
      · rw [if_pos hc] at h
        split at h
        · split_ifs at h
          all_goals
            first
            | (injection h with h1
               injection h1 with hn hout
               subst hn
               exact ⟨hout.symm, by omega⟩)
            | exact absurd h (by simp)
        · exact absurd h (by simp)
      · rw [if_neg hc] at h
        exact absurd h (by simp)

theorem tagPassM_count (b : Bool) (cs : List Char) (n : Nat) (out : List Char)
    (h : tagPassM b cs = some (n, out)) :
    out.count '\\' = (cs.take n).count '\\' ∧ 1 ≤ n := by
  have htag : tryTag cs = some (n, out) →
      out.count '\\' = (cs.take n).count '\\' ∧ 1 ≤ n := by
    intro ht
    obtain ⟨hout, hn⟩ := tryTag_some _ _ _ ht
    subst hout
    refine ⟨?_, hn⟩
    simp [List.count_cons, List.count_append]
  match cs with
  | [] => exact htag h
  | c :: rest =>
      rw [tagPassM_cons] at h
      by_cases hc : c = '`'
      · rw [if_pos hc] at h
        split at h
        · simp only [Option.some.injEq, Prod.mk.injEq] at h
          obtain ⟨hn, hout⟩ := h
          subst hn
          exact ⟨by rw [← hout], by omega⟩
        · exact htag h
      · rw [if_neg hc] at h
        exact htag h

theorem rscanAux_tagPass_count : ∀ (fuel : Nat) (cs : List Char) (b : Bool),
    (rscanAux tagPassM fuel cs b).count '\\' = cs.count '\\' := by
  intro fuel
  induction fuel with
  | zero => intro cs b; rfl
  | succ fuel ih =>
      intro cs b
      match cs with
      | [] => rfl
      | c :: rest =>
          rw [rscanAux]
          cases h : tagPassM b (c :: rest) with
          | none =>
              simp only [List.count_cons, ih]
          | some p =>
              obtain ⟨n, out⟩ := p
              obtain ⟨hcount, hn⟩ := tagPassM_count b (c :: rest) n out h
              simp only [List.count_append]
              rw [ih, hcount]
              have hm : max n 1 = n := by omega
              rw [hm]
              conv_rhs => rw [← List.take_append_drop n (c :: rest)]
              rw [List.count_append]

/-- C8 (amended): the final tag/code-span pass wraps every bare (non-code)
HTML tag in a backtick code span rather than backslash-escaping it — it
never adds a backslash, and a code-span match of that pass is emitted
verbatim; but content that was inside an inline code span of the INPUT is
not byte-identical in general, because the earlier escape passes also
rewrite markdown-significant characters inside code spans (see the
counterexample).  Concretely, a bare tag `<b>` escapes to `` `<b>` ``. -/
theorem escape_tag_wrapping_amended :
    (∀ text : List Char, (rscan tagPassM text).count '\\' = text.count '\\')
  ∧ (∀ (b : Bool) (c : Char) (rest : List Char) (d : Nat), findTick rest = some d →
       tagPassM b (c :: rest) = some (d + 2, (c :: rest).take (d + 2)) ∨ c ≠ '`')
  ∧ (∀ (cs : List Char) (n : Nat) (out : List Char), tryTag cs = some (n, out) →
       out = '`' :: (cs.take n ++ ['`']))
  ∧ escapeStage "<b>".toList = "`<b>`".toList := by
  refine ⟨?_, ?_, ?_, by decide⟩
  · intro text
    exact rscanAux_tagPass_count text.length text true
  · intro b c rest d hfind
    by_cases hc : c = '`'
    · left
      rw [tagPassM_cons, if_pos hc, hfind]
    · right
      exact hc
  · intro cs n out h
    exact (tryTag_some cs n out h).1

/-- Witness for the amended C8: the wrap shape of a concrete tag match of
the final pass. -/
theorem escape_tag_wrapping_amended_witness :
    "`<b>`".toList = '`' :: ("<b>".toList.take 3 ++ ['`']) :=
  escape_tag_wrapping_amended.2.2.1 "<b>".toList 3 "`<b>`".toList rfl

theorem maxLevelRule_clamp (m : Nat) (d : Int) (c : Bool) (cur : Nat) :
    maxLevelRule m false d c cur = (max cur m, d, c) := rfl

theorem scanAux_nil (rule : Int → Bool → Nat → Nat × Int × Bool) :
    ∀ (fuel : Nat) (b : Bool) (d : Int) (c f : Bool),
      scanHeadingsAux rule fuel [] b d c f = ([], f) := by
  intro fuel b d c f
  cases fuel <;> rfl

theorem headingGuard_false (cs : List Char) : headingGuard false cs = false := rfl

theorem scanAux_cons_false (rule : Int → Bool → Nat → Nat × Int × Bool)
    (fuel : Nat) (y : Char) (ys : List Char) (d : Int) (c f : Bool) :
    scanHeadingsAux rule (fuel + 1) (y :: ys) false d c f =
      (y :: (scanHeadingsAux rule fuel ys (isLineTerm y) d c f).1,
       (scanHeadingsAux rule fuel ys (isLineTerm y) d c f).2) := by
  rw [scanHeadingsAux_cons, if_neg]
  rw [headingGuard_false]
  simp

theorem scanAux_fuel_irrel (rule : Int → Bool → Nat → Nat × Int × Bool) :
    ∀ (fuel1 fuel2 : Nat) (cs : List Char) (b : Bool) (d : Int) (c f : Bool),
      cs.length ≤ fuel1 → cs.length ≤ fuel2 →
      scanHeadingsAux rule fuel1 cs b d c f = scanHeadingsAux rule fuel2 cs b d c f := by
  intro fuel1
  induction fuel1 with
  | zero =>
      intro fuel2 cs b d c f h1 h2
      have : cs = [] := List.length_eq_zero.mp (Nat.le_zero.mp h1)
      subst this
      rw [scanAux_nil, scanAux_nil]
  | succ fuel1 ih =>
      intro fuel2 cs b d c f h1 h2
      match cs with
      | [] => rw [scanAux_nil, scanAux_nil]
      | ch :: rest =>
          match fuel2 with
          | 0 => exact absurd h2 (by simp)
          | fuel2 + 1 =>
              rw [scanHeadingsAux_cons, scanHeadingsAux_cons]
              by_cases hg : headingGuard b (ch :: rest) = true
              · rw [if_pos hg, if_pos hg]
                have hws : wsAt (ch :: rest) (leadHashes (ch :: rest)) = true := by
                  unfold headingGuard at hg
                  simp only [Bool.and_eq_true] at hg
                  exact hg.2
                have hlt : leadHashes (ch :: rest) < (ch :: rest).length := by
                  unfold wsAt at hws
                  rcases hget : (ch :: rest).get? (leadHashes (ch :: rest)) with _ | w
                  · rw [hget] at hws; exact absurd hws (by simp)
                  · exact (List.get?_eq_some.mp hget).1
                have hdlen : ((ch :: rest).drop (leadHashes (ch :: rest) + 1)).length ≤ fuel1 ∧
                    ((ch :: rest).drop (leadHashes (ch :: rest) + 1)).length ≤ fuel2 := by
                  rw [List.length_drop]
                  simp only [List.length_cons] at h1 h2 ⊢
                  omega
                rw [ih fuel2 _ _ _ _ _ hdlen.1 hdlen.2]
              · rw [if_neg hg, if_neg hg]
                have hrlen : rest.length ≤ fuel1 ∧ rest.length ≤ fuel2 := by
                  simp only [List.length_cons] at h1 h2
                  omega
                rw [ih fuel2 _ _ _ _ _ hrlen.1 hrlen.2]

theorem scanAux_copy_through (rule : Int → Bool → Nat → Nat × Int × Bool) :
    ∀ (w ys : List Char) (fuelA fuelB : Nat) (d : Int) (c f : Bool),
      (∀ ch ∈ w, isLineTerm ch = false) →
      w.length + ys.length ≤ fuelA → ys.length ≤ fuelB →
      (scanHeadingsAux rule fuelA (w ++ ys) false d c f).1 =
        w ++ (scanHeadingsAux rule fuelB ys false d c f).1 := by
  intro w
  induction w with
  | nil =>
      intro ys fuelA fuelB d c f _ hA hB
      rw [List.nil_append, List.nil_append,
        scanAux_fuel_irrel rule fuelA fuelB ys false d c f (by simpa using hA) hB]
  | cons ch w2 ih =>
      intro ys fuelA fuelB d c f hterm hA hB
      match fuelA with
      | 0 => exact absurd hA (by simp)
      | fuelA + 1 =>
          rw [List.cons_append, scanAux_cons_false]
          have hch : isLineTerm ch = false := hterm ch (by simp)
          rw [hch]
          simp only
          rw [ih ys fuelA fuelB d c f (fun x hx => hterm x (by simp [hx]))
            (by simp only [List.length_cons, List.length_append] at hA ⊢; omega) hB]
          rfl

theorem takeWhile_hashes_replicate : ∀ cs : List Char,
    cs.takeWhile (· = '#') = List.replicate (leadHashes cs) '#' := by
  intro cs
  unfold leadHashes
  apply List.eq_replicate.mpr
  refine ⟨rfl, ?_⟩
  intro b hb
  simpa using List.mem_takeWhile_imp hb

theorem cs_hash_decomp (cs : List Char) :
    cs = List.replicate (leadHashes cs) '#' ++ cs.drop (leadHashes cs) := by
  conv_lhs => rw [← List.takeWhile_append_dropWhile (p := (· = '#')) (l := cs)]
  rw [takeWhile_hashes_replicate]
  congr 1
  rw [← drop_takeWhile_length]
  unfold leadHashes
  rfl

theorem head_drop_leadHashes (cs : List Char) (y : Char)
    (h : (cs.drop (leadHashes cs)).head? = some y) : y ≠ '#' := by
  rw [show leadHashes cs = (cs.takeWhile (· = '#')).length from rfl,
    drop_takeWhile_length] at h
  have := head_dropWhile_false (· = '#') cs y h
  simpa using this

theorem leadHashes_nil : leadHashes [] = 0 := rfl

theorem leadHashes_cons_ne {c : Char} (hc : c ≠ '#') (l : List Char) :
    leadHashes (c :: l) = 0 := by
  unfold leadHashes
  simp [List.takeWhile_cons, hc]

theorem leadHashes_cons_hash (l : List Char) :
    leadHashes ('#' :: l) = leadHashes l + 1 := by
  unfold leadHashes
  simp [List.takeWhile_cons]

theorem leadHashes_replicate_append_list (k : Nat) (l : List Char) :
    leadHashes (List.replicate k '#' ++ l) = k + leadHashes l := by
  induction k with
  | zero => simp
  | succ k ih =>
      rw [List.replicate_succ, List.cons_append, leadHashes_cons_hash, ih]
      omega

theorem get?_replicate_append (n : Nat) (a : Char) (l : List Char) :
    (List.replicate n a ++ l).get? n = l.head? := by
  rw [List.get?_append_right (by simp)]
  simp [← List.head?_eq_getElem?]

theorem drop_succ_replicate_append (n : Nat) (y : Char) (l : List Char) :
    (List.replicate n '#' ++ y :: l).drop (n + 1) = l := by
  rw [show n + 1 = n + 1 from rfl]
  rw [List.drop_append_eq_append_drop]
  simp

theorem clampScan_cons_match (m : Nat) (fuel : Nat) (ch : Char) (rest : List Char)
    (b : Bool) (d : Int) (c f : Bool)
    (hg : headingGuard b (ch :: rest) = true) :
    scanHeadingsAux (maxLevelRule m false) (fuel + 1) (ch :: rest) b d c f =
      (List.replicate (max (leadHashes (ch :: rest)) m) '#' ++
        ' ' :: (scanHeadingsAux (maxLevelRule m false) fuel
          ((ch :: rest).drop (leadHashes (ch :: rest) + 1))
          (termAt (ch :: rest) (leadHashes (ch :: rest))) d c
          (decide (max (leadHashes (ch :: rest)) m ≠ leadHashes (ch :: rest)))).1,
       (scanHeadingsAux (maxLevelRule m false) fuel
          ((ch :: rest).drop (leadHashes (ch :: rest) + 1))
          (termAt (ch :: rest) (leadHashes (ch :: rest))) d c
          (decide (max (leadHashes (ch :: rest)) m ≠ leadHashes (ch :: rest)))).2) := by
  rw [scanHeadingsAux_cons, if_pos hg]
  rfl

theorem clampScan_match_any (m : Nat) (fuel : Nat) (cs : List Char)
    (b : Bool) (d : Int) (c f : Bool)
    (hg : headingGuard b cs = true) :
    scanHeadingsAux (maxLevelRule m false) (fuel + 1) cs b d c f =
      (List.replicate (max (leadHashes cs) m) '#' ++
        ' ' :: (scanHeadingsAux (maxLevelRule m false) fuel
          (cs.drop (leadHashes cs + 1)) (termAt cs (leadHashes cs)) d c
          (decide (max (leadHashes cs) m ≠ leadHashes cs))).1,
       (scanHeadingsAux (maxLevelRule m false) fuel
          (cs.drop (leadHashes cs + 1)) (termAt cs (leadHashes cs)) d c
          (decide (max (leadHashes cs) m ≠ leadHashes cs))).2) := by
  match cs with
  | [] =>
      exact absurd hg (by simp [headingGuard, leadHashes])
  | ch :: rest => exact clampScan_cons_match m fuel ch rest b d c f hg


theorem get?_leadHashes (l : List Char) :
    l.get? (leadHashes l) = (l.drop (leadHashes l)).head? := by
  obtain ⟨k, hk⟩ : ∃ k, leadHashes l = k := ⟨_, rfl⟩
  rw [hk]
  conv_lhs => rw [cs_hash_decomp l]
  rw [hk, get?_replicate_append]

theorem clamp_scan_idem (m : Nat) :
    ∀ (fuel : Nat) (cs : List Char) (b : Bool) (d : Int) (c f : Bool),
      cs.length ≤ fuel →
      ∀ (fuel2 : Nat) (b2 : Bool) (d2 : Int) (c2 f2 : Bool),
        (b2 = true → b = true) →
        (scanHeadingsAux (maxLevelRule m false) fuel cs b d c f).1.length ≤ fuel2 →
        (scanHeadingsAux (maxLevelRule m false) fuel2
          (scanHeadingsAux (maxLevelRule m false) fuel cs b d c f).1 b2 d2 c2 f2).1 =
        (scanHeadingsAux (maxLevelRule m false) fuel cs b d c f).1 := by
  intro fuel
  induction fuel with
  | zero =>
      intro cs b d c f hlen fuel2 b2 d2 c2 f2 hb2 hlen2
      have hnil : cs = [] := List.length_eq_zero.mp (Nat.le_zero.mp hlen)
      subst hnil
      simp [scanAux_nil]
  | succ fuel ih =>
      intro cs b d c f hlen fuel2 b2 d2 c2 f2 hb2 hlen2
      match cs with
      | [] => simp [scanAux_nil]
      | ch :: rest =>
          have hrestlen : rest.length ≤ fuel := by
            simp only [List.length_cons] at hlen; omega
          by_cases hg : headingGuard b (ch :: rest) = true
          · -- a heading match at the current position
            have hgd := hg
            unfold headingGuard at hgd
            simp only [Bool.and_eq_true, decide_eq_true_eq] at hgd
            obtain ⟨⟨⟨hbT, hk1⟩, hk6⟩, hws⟩ := hgd
            rw [clampScan_cons_match m fuel ch rest b d c f hg] at hlen2 ⊢
            set k := leadHashes (ch :: rest) with hk
            set res1 := (scanHeadingsAux (maxLevelRule m false) fuel
              ((ch :: rest).drop (k + 1)) (termAt (ch :: rest) k) d c
              (decide (max k m ≠ k))).1 with hres1def
            have hdroplen : ((ch :: rest).drop (k + 1)).length ≤ fuel := by
              rw [List.length_drop]; simp only [List.length_cons] at hlen ⊢; omega
            have ihres : ∀ (fl : Nat) (bb : Bool) (dd : Int) (cc ff : Bool),
                (bb = true → termAt (ch :: rest) k = true) → res1.length ≤ fl →
                (scanHeadingsAux (maxLevelRule m false) fl res1 bb dd cc ff).1 = res1 :=
              fun fl bb dd cc ff hbb hfl =>
                ih _ _ _ _ _ hdroplen fl bb dd cc ff hbb hfl
            have hlen2' : (max k m) + (res1.length + 1) ≤ fuel2 := by
              simpa [List.length_append] using hlen2
            have hNpos : 1 ≤ max k m := le_trans hk1 (Nat.le_max_left _ _)
            have hwprefix : ∀ x ∈ List.replicate (max k m) '#' ++ [' '],
                isLineTerm x = false := by
              intro x hx
              rcases List.mem_append.mp hx with hx | hx
              · rw [List.eq_of_mem_replicate hx]; decide
              · simp only [List.mem_singleton] at hx; rw [hx]; decide
            have happ : List.replicate (max k m) '#' ++ ' ' :: res1 =
                (List.replicate (max k m) '#' ++ [' ']) ++ res1 := by
              rw [List.append_assoc]; rfl
            cases b2 with
            | false =>
                rw [happ, scanAux_copy_through (maxLevelRule m false)
                  (List.replicate (max k m) '#' ++ [' ']) res1 fuel2 res1.length
                  d2 c2 f2 hwprefix
                  (by simp only [List.length_append, List.length_replicate,
                    List.length_cons, List.length_nil]; omega)
                  (Nat.le_refl _),
                  ihres res1.length false d2 c2 f2 (by simp) (Nat.le_refl _)]
            | true =>
                by_cases hN6 : max k m ≤ 6
                · -- the rewritten heading matches again; the clamp fixes it
                  match fuel2, hlen2' with
                  | fuel2 + 1, hlen2' =>
                      have hguard2 : headingGuard true
                          (List.replicate (max k m) '#' ++ ' ' :: res1) = true := by
                        unfold headingGuard wsAt
                        rw [leadHashes_replicate_append (by decide),
                          get?_replicate_append]
                        simp [hNpos, hN6, show jsWs ' ' = true from by decide]
                      rw [clampScan_match_any m fuel2 _ true d2 c2 f2 hguard2]
                      rw [leadHashes_replicate_append (by decide)]
                      have hmaxabs : max (max k m) m = max k m := by
                        rw [Nat.max_assoc, Nat.max_self]
                      rw [hmaxabs, drop_succ_replicate_append]
                      have hterm2 : termAt
                          (List.replicate (max k m) '#' ++ ' ' :: res1) (max k m) = false := by
                        unfold termAt
                        rw [get?_replicate_append]
                        simp [isLineTerm]
                      rw [hterm2,
                        ihres fuel2 false d2 c2 _ (by simp) (by omega)]
                · -- the rewritten run is deeper than 6 hashes: no match in it
                  obtain ⟨N2, hN2⟩ : ∃ N2, max k m = N2 + 1 := ⟨max k m - 1, by omega⟩
                  rw [hN2] at hlen2' ⊢
                  rw [List.replicate_succ, List.cons_append]
                  have hguard2 : headingGuard true
                      ('#' :: (List.replicate N2 '#' ++ ' ' :: res1)) = false := by
                    unfold headingGuard
                    rw [show leadHashes ('#' :: (List.replicate N2 '#' ++ ' ' :: res1)) =
                        N2 + 1 from by
                      rw [leadHashes_cons_hash, leadHashes_replicate_append (by decide)]]
                    have h6f : decide (N2 + 1 ≤ 6) = false := by
                      rw [decide_eq_false_iff_not]
                      omega
                    rw [h6f]
                    simp
                  match fuel2, hlen2' with
                  | fuel2 + 1, hlen2' =>
                      rw [scanHeadingsAux_cons, if_neg (by simp [hguard2])]
                      simp only
                      rw [show isLineTerm '#' = false from by decide]
                      have happ2 : List.replicate N2 '#' ++ ' ' :: res1 =
                          (List.replicate N2 '#' ++ [' ']) ++ res1 := by
                        rw [List.append_assoc]; rfl
                      rw [happ2, scanAux_copy_through (maxLevelRule m false)
                        (List.replicate N2 '#' ++ [' ']) res1 fuel2 res1.length
                        d2 c2 f2
                        (by
                          intro x hx
                          rcases List.mem_append.mp hx with hx | hx
                          · rw [List.eq_of_mem_replicate hx]; decide
                          · simp only [List.mem_singleton] at hx; rw [hx]; decide)
                        (by simp only [List.length_append, List.length_replicate,
                          List.length_cons, List.length_nil]; omega)
                        (Nat.le_refl _),
                        ihres res1.length false d2 c2 f2 (by simp) (Nat.le_refl _)]
          · -- no match at the current position
            rw [scanHeadingsAux_cons, if_neg hg] at hlen2 ⊢
            simp only at hlen2 ⊢
            set res1 := (scanHeadingsAux (maxLevelRule m false) fuel rest
              (isLineTerm ch) d c f).1 with hres1def
            have hreslen : res1.length + 1 ≤ fuel2 := by
              simpa using hlen2
            obtain ⟨fuel2', hfuel2'⟩ : ∃ fl, fuel2 = fl + 1 :=
              ⟨fuel2 - 1, by omega⟩
            by_cases hch : ch = '#'
            · -- the unmatched position starts a hash run
              subst hch
              have hrestdec : rest = List.replicate (leadHashes rest) '#' ++
                  rest.drop (leadHashes rest) := cs_hash_decomp rest
              have hyslen : (rest.drop (leadHashes rest)).length ≤ fuel := by
                rw [List.length_drop]; omega
              have hres1eq : res1 = List.replicate (leadHashes rest) '#' ++
                  (scanHeadingsAux (maxLevelRule m false) fuel
                    (rest.drop (leadHashes rest)) false d c f).1 := by
                rw [hres1def, show isLineTerm '#' = false from by decide]
                conv_lhs => rw [hrestdec]
                rw [scanAux_copy_through (maxLevelRule m false)
                  (List.replicate (leadHashes rest) '#') (rest.drop (leadHashes rest))
                  fuel fuel d c f
                  (by intro x hx; rw [List.eq_of_mem_replicate hx]; decide)
                  (by rw [← List.length_append, ← hrestdec]; exact hrestlen)
                  hyslen]
              have hoyhead : (scanHeadingsAux (maxLevelRule m false) fuel
                  (rest.drop (leadHashes rest)) false d c f).1.head? =
                  (rest.drop (leadHashes rest)).head? := by
                rcases hys : rest.drop (leadHashes rest) with _ | ⟨y0, ys0⟩
                · rw [scanAux_nil]
                · have hyl : (y0 :: ys0).length ≤ fuel := by rw [← hys]; exact hyslen
                  obtain ⟨g, hgf⟩ : ∃ g, fuel = g + 1 :=
                    ⟨fuel - 1, by simp only [List.length_cons] at hyl; omega⟩
                  rw [hgf, scanAux_cons_false]
                  rfl
              have hoy0 : leadHashes (scanHeadingsAux (maxLevelRule m false) fuel
                  (rest.drop (leadHashes rest)) false d c f).1 = 0 := by
                rcases hoyc : (scanHeadingsAux (maxLevelRule m false) fuel
                    (rest.drop (leadHashes rest)) false d c f).1 with _ | ⟨o0, os⟩
                · rfl
                · have hh := hoyhead
                  rw [hoyc] at hh
                  have ho0 : o0 ≠ '#' := head_drop_leadHashes rest o0 hh.symm
                  exact leadHashes_cons_ne ho0 os
              have hleadout : leadHashes ('#' :: res1) = leadHashes rest + 1 := by
                rw [hres1eq, leadHashes_cons_hash, leadHashes_replicate_append_list, hoy0]
              have hleadin : leadHashes ('#' :: rest) = leadHashes rest + 1 :=
                leadHashes_cons_hash rest
              have hgetout : ('#' :: res1).get? (leadHashes rest + 1) =
                  (rest.drop (leadHashes rest)).head? := by
                rw [show ('#' :: res1).get? (leadHashes rest + 1) =
                    res1.get? (leadHashes rest) from rfl,
                  hres1eq, get?_replicate_append, hoyhead]
              have hgetin : ('#' :: rest).get? (leadHashes rest + 1) =
                  (rest.drop (leadHashes rest)).head? := by
                rw [show ('#' :: rest).get? (leadHashes rest + 1) =
                    rest.get? (leadHashes rest) from rfl, get?_leadHashes]
              have hguard2 : headingGuard b2 ('#' :: res1) = false := by
                cases b2 with
                | false => exact headingGuard_false _
                | true =>
                    have hb : b = true := hb2 rfl
                    subst hb
                    unfold headingGuard wsAt at hg ⊢
                    rw [hleadout, hgetout]
                    rw [hleadin, hgetin] at hg
                    simpa using hg
              rw [hfuel2']
              rw [scanHeadingsAux_cons, if_neg (by simp [hguard2])]
              simp only
              rw [show isLineTerm '#' = false from by decide]
              rw [hres1eq, scanAux_copy_through (maxLevelRule m false)
                (List.replicate (leadHashes rest) '#')
                (scanHeadingsAux (maxLevelRule m false) fuel
                  (rest.drop (leadHashes rest)) false d c f).1
                fuel2'
                (scanHeadingsAux (maxLevelRule m false) fuel
                  (rest.drop (leadHashes rest)) false d c f).1.length
                d2 c2 f2
                (by intro x hx; rw [List.eq_of_mem_replicate hx]; decide)
                (by
                  have h1 : res1.length = (List.replicate (leadHashes rest) '#').length +
                      (scanHeadingsAux (maxLevelRule m false) fuel
                        (rest.drop (leadHashes rest)) false d c f).1.length := by
                    rw [hres1eq, List.length_append]
                  rw [List.length_replicate] at h1
                  rw [hfuel2'] at hreslen
                  rw [List.length_replicate]
                  omega)
                (Nat.le_refl _),
                ih (rest.drop (leadHashes rest)) false d c f hyslen
                  (scanHeadingsAux (maxLevelRule m false) fuel
                    (rest.drop (leadHashes rest)) false d c f).1.length
                  false d2 c2 f2 (fun h => h) (Nat.le_refl _)]
            · -- the unmatched character is not a hash
              have hguard2 : headingGuard b2 (ch :: res1) = false := by
                cases b2 with
                | false => exact headingGuard_false _
                | true =>
                    unfold headingGuard
                    rw [leadHashes_cons_ne hch]
                    simp
              rw [hfuel2']
              rw [scanHeadingsAux_cons, if_neg (by simp [hguard2])]
              simp only
              rw [ih rest (isLineTerm ch) d c f hrestlen fuel2' (isLineTerm ch)
                d2 c2 f2 (fun h => h)
                (by
                  have hkk : (scanHeadingsAux (maxLevelRule m false) fuel rest
                      (isLineTerm ch) d c f).1.length = res1.length := by
                    rw [← hres1def]
                  omega)]

/-- C9: with contextual mode inapplicable, `maxHeadingLevel > 1` and
cascading disabled (the non-cascading clamp
`newLevel = max(currentLevel, maxHeadingLevel)`), the heading normalizer
stage is idempotent on the text: applying it twice yields the same text
as applying it once. -/
theorem clamp_stage_idempotent (s : Settings) (contextLevel : Nat) (text : List Char)
    (hna : s.contextualCascade = false ∨ contextLevel = 0)
    (hmax : 1 < s.maxHeadingLevel) (hcas : s.cascadeHeadingLevels = false) :
    (headingStage s contextLevel ((headingStage s contextLevel text false).1) false).1 =
      (headingStage s contextLevel text false).1 := by
  have hcond : (s.contextualCascade && decide (0 < contextLevel)) = false := by
    rcases hna with h | h <;> simp [h]
  unfold headingStage
  rw [hcond]
  simp only [Bool.false_eq_true, if_false]
  rw [if_pos (by simpa using hmax), if_pos (by simpa using hmax), hcas]
  unfold scanHeadings
  exact clamp_scan_idem s.maxHeadingLevel text.length text true (-1) false false
    (Nat.le_refl _) _ true (-1) false false (fun _ => rfl) (Nat.le_refl _)

/-- Witness for C9 at a concrete input: clamping `"# a\n#### b"` to
minimum level 3 once or twice gives the same text. -/
theorem clamp_stage_idempotent_witness :
    (headingStage ⟨[], false, 3, false, false, false, false⟩ 0
      ((headingStage ⟨[], false, 3, false, false, false, false⟩ 0
        "# a\n#### b".toList false).1) false).1 =
    (headingStage ⟨[], false, 3, false, false, false, false⟩ 0
      "# a\n#### b".toList false).1 :=
  clamp_stage_idempotent ⟨[], false, 3, false, false, false, false⟩ 0
    "# a\n#### b".toList (Or.inl rfl) (by decide) rfl
